import Mathlib

/-!
# Ring-completion bitmap of `drivers/net/mt_headers/read_done.h`

A shallow embedding of the completion bitmap used by the multi-threaded
receive path and of the packed cursor of `drivers/net/i40e/tail_handler.h`,
and proofs of their contract.

Modelling conventions

* The backing storage `unsigned int *array` is a `List Nat` of 32-bit words;
  word `i` of the list is `array[i]` of the C code.  An access outside the
  list is undefined behaviour in C and is reported as `Fault.out_of_bounds`.
* Machine integers are natural numbers, reduced `% 2 ^ w` where the C type
  can wrap (`unsigned int`, `uint16_t`, `uint8_t`).
* `sizeof(unsigned int) * 8` is `32`, so `size_ull = 32`.
* The model is single threaded: an atomic load, store or compare-exchange
  acts on the list directly, and a compare-exchange fails only when the word
  differs from the expected value.
* Every loop carries a `fuel` bound: the number of times a `while` test may
  be evaluated, or a `do ... while` body may run.  Running out is reported as
  `Fault.out_of_fuel`, so a loop that never ends in C is a call that is out
  of fuel for every `fuel`.
* `exit(1)` is reported as `Fault.exit_failure`.
* The `uint64_t` cursor of `drivers/net/i40e/tail_handler.h` is the list of
  its 8 bytes in address order, read and written little-endian.
* `read_most_significant_bit` works on `unsigned long long` words: its array
  is a list of 64-bit words and its `size_ull` is `64`.
* Concurrent calls of `write_bit` are a transition system on the shared word,
  one step per atomic load or compare-exchange.
-/

namespace Corec

/-! ## Outcomes -/

/-- Reasons for which a call does not return normally. -/
inductive Fault where
  /-- An access outside the backing array. -/
  | out_of_bounds
  /-- The `exit(1)` branch of `write_batch64`. -/
  | exit_failure
  /-- A loop did not finish within the given number of iterations. -/
  | out_of_fuel
  /-- The call `__builtin_clzll(0)`, whose result is undefined. -/
  | undefined_clz
  deriving DecidableEq, Repr

/-- Result of a call: a value, or the reason why there is none. -/
inductive Outcome (α : Type) where
  | ok : α → Outcome α
  | fault : Fault → Outcome α
  deriving DecidableEq, Repr

/-- The backing storage: one natural number per `unsigned int` word. -/
abbrev Bitmap := List Nat

/-! ## Constants and macros -/

/-- Value of `UINT_MAX` for a 32-bit `unsigned int`. -/
def UINT_MAX : Nat := 4294967295

/-- Value of `size_ull = sizeof(unsigned int) * 8`. -/
def size_ull : Nat := 32

/-- Conversion to `unsigned int` of `x - 1` computed in `int`, for `0 ≤ x`:
the second operand of `&` in the `wrap_ring` macros. -/
def pred_as_unsigned (x : Nat) : Nat := (x + 4294967295) % 4294967296

/-- Macro `wrap_ring(index, ring_size)`:
`(uint16_t) ((index + 1) & (ring_size - 1))`, `index` an `unsigned int`. -/
def wrap_ring (index ring_size : Nat) : Nat :=
  (((index + 1) % 4294967296) &&& pred_as_unsigned ring_size) % 65536

/-- Macro `wrap_ring_n(index, n, size)`:
`(uint16_t) ((index + (n)) & (size - 1))`, `index` an `unsigned int`. -/
def wrap_ring_n (index n size : Nat) : Nat :=
  (((index + n) % 4294967296) &&& pred_as_unsigned size) % 65536

/-! ## Atomic accesses (single-threaded) -/

/-- Model of `__atomic_load_n(array + i, _)`. -/
def atomic_load (array : Bitmap) (i : Nat) : Outcome Nat :=
  match array[i]? with
  | some v => .ok v
  | none => .fault .out_of_bounds

/-- Model of `__atomic_store_n(array + i, v, _)`. -/
def atomic_store (array : Bitmap) (i v : Nat) : Outcome Bitmap :=
  if i < array.length then .ok (array.set i v) else .fault .out_of_bounds

/-- Model of `__atomic_compare_exchange_n(array + i, &expected, desired, ..)`:
the flag tells whether the exchange took place. -/
def atomic_compare_exchange (array : Bitmap) (i expected desired : Nat) :
    Outcome (Bool × Bitmap) :=
  match array[i]? with
  | some cur =>
    if cur = expected then .ok (true, array.set i desired) else .ok (false, array)
  | none => .fault .out_of_bounds

/-- The retry loop shared by `write_bit` (lines 59-66) and
`write_batch_is_done` (lines 151-155 and 162-166):
`do { old = load(array + i); new = old | mask; } while (!cas(array + i, &old, new));` -/
def or_retry (array : Bitmap) (i mask : Nat) : Nat → Outcome Bitmap
  | 0 => .fault .out_of_fuel
  | fuel + 1 =>
    match atomic_load array i with
    | .fault f => .fault f
    | .ok old =>
      match atomic_compare_exchange array i old (old ||| mask) with
      | .fault f => .fault f
      | .ok (true, array') => .ok array'
      | .ok (false, array') => or_retry array' i mask fuel

/-! ## The operations of `read_done.h` -/

/-- Loop of `write_batch64` (lines 33-45); `fuel` bounds the number of
evaluations of the loop test. -/
def write_batch64_loop (end_ size_array size : Nat) :
    Nat → Bitmap → Nat → Nat → Outcome Bitmap
  | 0, _, _, _ => .fault .out_of_fuel
  | fuel + 1, array, start_var, step =>
    if step = end_ then .ok array
    else
      match atomic_load array start_var with
      | .fault f => .fault f
      | .ok var =>
        if var ≠ UINT_MAX then .fault .exit_failure
        else
          match atomic_store array start_var 0 with
          | .fault f => .fault f
          | .ok array' =>
            write_batch64_loop end_ size_array size fuel array'
              (wrap_ring start_var size_array) (wrap_ring_n step size_ull size)

/-- Function `write_batch64(array, start, end, size)`; `size_array` is a
`uint8_t`, hence the reduction modulo `256`. -/
def write_batch64 (fuel : Nat) (array : Bitmap) (start end_ size : Nat) : Outcome Bitmap :=
  let start_var := start / size_ull
  let size_array := (size / size_ull) % 256
  write_batch64_loop end_ size_array size fuel array start_var start

/-- Function `write_bit(array, bit)`. -/
def write_bit (fuel : Nat) (array : Bitmap) (bit : Nat) : Outcome Bitmap :=
  let start_var := bit / size_ull
  let offset := bit % size_ull
  let varr := (1 <<< offset) % 4294967296
  or_retry array start_var varr fuel

/-- Loop of `read_end_batch64` (lines 105-108); `fuel` bounds the number of
evaluations of the loop test. -/
def read_end_batch64_loop (array : Bitmap) (size : Nat) : Nat → Nat → Outcome Nat
  | 0, _ => .fault .out_of_fuel
  | fuel + 1, start_var =>
    match atomic_load array start_var with
    | .fault f => .fault f
    | .ok var =>
      if var = UINT_MAX then
        read_end_batch64_loop array size fuel (wrap_ring start_var (size / size_ull))
      else .ok ((start_var * size_ull) % 4294967296)

/-- Function `read_end_batch64(array, start, size)`. -/
def read_end_batch64 (fuel : Nat) (array : Bitmap) (start size : Nat) : Outcome Nat :=
  read_end_batch64_loop array size fuel (start / size_ull)

/-- Loop of `read_batch64` (lines 118-123); `fuel` bounds the number of
evaluations of the loop test. -/
def read_batch64_loop (array : Bitmap) (size : Nat) : Nat → Nat → Nat → Outcome Nat
  | 0, _, _ => .fault .out_of_fuel
  | fuel + 1, start_var, processed =>
    match atomic_load array start_var with
    | .fault f => .fault f
    | .ok var =>
      if var = UINT_MAX then
        read_batch64_loop array size fuel (wrap_ring start_var (size / size_ull))
          ((processed + size_ull) % 4294967296)
      else .ok processed

/-- Function `read_batch64(array, start, size)`. -/
def read_batch64 (fuel : Nat) (array : Bitmap) (start size : Nat) : Outcome Nat :=
  read_batch64_loop array size fuel (start / size_ull) 0

/-- Function `read_bit(array, index)`.  The mask `1 << offset` is computed in
`int` and converted to `unsigned int` by the `&`; with two's complement
(the behaviour GCC documents for `<<` on signed types) that is
`2 ^ offset` also for `offset = 31`. -/
def read_bit (array : Bitmap) (index : Nat) : Outcome Bool :=
  let start_var := index / size_ull
  let offset := index % size_ull
  let bit := (1 <<< offset) % 4294967296
  match atomic_load array start_var with
  | .fault f => .fault f
  | .ok var => .ok (decide (bit &&& var ≠ 0))

/-- Outer loop of `write_batch_is_done` (lines 147-158); it returns the array
together with the values of `start_var` and `start_offset` on exit.  `fuel`
bounds the number of evaluations of the loop test, `cas_fuel` the attempts of
each compare-exchange loop. -/
def write_batch_is_done_loop (end_var size_array cas_fuel : Nat) :
    Nat → Bitmap → Nat → Nat → Outcome (Bitmap × Nat × Nat)
  | 0, _, _, _ => .fault .out_of_fuel
  | fuel + 1, array, start_var, start_offset =>
    if start_var = end_var then .ok (array, start_var, start_offset)
    else
      let var1 := (UINT_MAX <<< start_offset) % 4294967296
      match or_retry array start_var var1 cas_fuel with
      | .fault f => .fault f
      | .ok array' =>
        write_batch_is_done_loop end_var size_array cas_fuel fuel array'
          (wrap_ring start_var size_array) 0

/-- Function `write_batch_is_done(array, start, end, size)`; `size_array` is
a `uint8_t`, hence the reduction modulo `256`. -/
def write_batch_is_done (fuel : Nat) (array : Bitmap) (start end_ size : Nat) :
    Outcome Bitmap :=
  let size_array := (size / size_ull) % 256
  let start_var := start / size_ull
  let start_offset := start % size_ull
  let end_var := end_ / size_ull
  let end_offset := end_ % size_ull
  match write_batch_is_done_loop end_var size_array fuel fuel array start_var start_offset with
  | .fault f => .fault f
  | .ok (array', start_var', start_offset') =>
    let var1 := (UINT_MAX <<< start_offset') % 4294967296
    let var2 := UINT_MAX >>> ((size_ull + 4294967296 - end_offset - 1) % 4294967296)
    let flag_batch := var1 &&& var2
    or_retry array' start_var' flag_batch fuel

/-! ## Ring sizes and bitmap states -/

/-- A ring size accepted by the contract: a power of two that is a multiple
of the word width. -/
def RingSize (size : Nat) : Prop := (∃ n, size = 2 ^ n) ∧ 32 ∣ size

/-- Every word of the bitmap is a 32-bit value. -/
def Words32 (array : Bitmap) : Prop := ∀ w ∈ array, w < 4294967296

/-! ## Cursors of `write_batch64` -/

/-- Value of `start_var` in `write_batch64(array, start, end, size)` after `k`
executions of the loop body: line 43 applied `k` times to `start / size_ull`. -/
def write_batch64_var (start size k : Nat) : Nat :=
  (fun v => wrap_ring v ((size / size_ull) % 256))^[k] (start / size_ull)

/-- Value of `step` in `write_batch64(array, start, end, size)` after `k`
executions of the loop body: line 44 applied `k` times to `start`. -/
def write_batch64_step (start size k : Nat) : Nat :=
  (fun s => wrap_ring_n s size_ull size)^[k] start

/-! ## Ranges of `write_batch_is_done` -/

/-- Slot `j` is one of the slots `start, start + 1, ..., end_` of the
inclusive ring range, the indices taken around the ring (`end_ < start` is a
range that wraps). -/
def in_ring_range (start end_ j : Nat) : Prop :=
  if start ≤ end_ then start ≤ j ∧ j ≤ end_ else start ≤ j ∨ j ≤ end_

instance in_ring_range_decidable (start end_ j : Nat) :
    Decidable (in_ring_range start end_ j) := by
  unfold in_ring_range
  exact inferInstance

/-- Word `w` is one of the words that the outer loop of `write_batch_is_done`
(lines 147-158) goes through from word `sv` until it reaches word `ev`, the
word indices taken around the ring. -/
def in_word_run (sv ev w : Nat) : Prop :=
  if sv ≤ ev then sv ≤ w ∧ w < ev else sv ≤ w ∨ w < ev

/-- Slot `j` gets its bit set by the masks of
`write_batch_is_done(array, start, end_, size)`: the slots from `start` to
`end_` when the two lie in one word (none when `end_ < start`), the slots of
the inclusive ring range otherwise. -/
def marks_slot (start end_ j : Nat) : Prop :=
  (start ≤ j ∧ j ≤ end_) ∨ (end_ / 32 < start / 32 ∧ (start ≤ j ∨ j ≤ end_))

/-! ## The packed cursor of `tail_handler.h`

`TAIL_UNWRAPPED || MIN_COUNTER`, 4 bytes each.  The object `*var` is the list
of its 8 bytes in address order. -/

/-- Value of the integer stored little-endian in `bytes`. -/
def load_le : List Nat → Nat
  | [] => 0
  | b :: bytes => b + 256 * load_le bytes

/-- The `width` bytes that store `value` little-endian. -/
def encode_le : Nat → Nat → List Nat
  | 0, _ => []
  | width + 1, value => (value % 256) :: encode_le width (value / 256)

/-- An atomic or plain load of `width` bytes at byte `offset` of the object. -/
def load_at (mem : List Nat) (offset width : Nat) : Nat :=
  load_le ((mem.drop offset).take width)

/-- An atomic store of `width` bytes at byte `offset` of the object. -/
def store_at (mem : List Nat) (offset width value : Nat) : List Nat :=
  mem.take offset ++ encode_le width value ++ mem.drop (offset + width)

/-- Function `read_variable(var)`: the load of the whole `uint64_t`. -/
def read_variable (var : List Nat) : Nat := load_at var 0 8

/-- Function `read_tail_w(var)`: the load of the `uint32_t` at
`((__uint32_t *)var) + 1`, that is at byte 4. -/
def read_tail_w (var : List Nat) : Nat := load_at var 4 4

/-- Function `read_tail_w_nonatomic(var)`: `(uint32_t) (*var >> 32)`. -/
def read_tail_w_nonatomic (var : List Nat) : Nat := (load_at var 0 8 >>> 32) % 4294967296

/-- Function `read_min_counter(var)`: the load of the `uint32_t` at
`(__uint32_t *)var`, that is at byte 0. -/
def read_min_counter (var : List Nat) : Nat := load_at var 0 4

/-- Function `read_min_counter_nonatomic(var)`: `(uint32_t) *var`. -/
def read_min_counter_nonatomic (var : List Nat) : Nat := load_at var 0 8 % 4294967296

/-- Function `write_tail_w(var, value)`: the store of the `uint32_t` at
`((uint32_t*) var) + 1`. -/
def write_tail_w (var : List Nat) (value : Nat) : List Nat := store_at var 4 4 value

/-- Function `write_min_counter(var, value)`: the store of the `uint32_t` at
`(uint32_t*) var`. -/
def write_min_counter (var : List Nat) (value : Nat) : List Nat := store_at var 0 4 value

/-! ## The scan `read_most_significant_bit` over 64-bit words -/

/-- Value of `size_ull = sizeof(unsigned long long) * 8` in
`read_most_significant_bit`. -/
def size_ull64 : Nat := 64

/-- Number of clear bits of `x` from bit `n - 1` downward, up to the first
set bit. -/
def leading_zeros (x : Nat) : Nat → Nat
  | 0 => 0
  | n + 1 => if x.testBit n then 0 else leading_zeros x n + 1

/-- Model of `__builtin_clzll(x)` for a 64-bit `x`: the number of leading
zero bits; the result is undefined for `x = 0`. -/
def builtin_clzll (x : Nat) : Outcome Nat :=
  if x = 0 then .fault .undefined_clz else .ok (leading_zeros x 64)

/-- Model of the plain read `*(array + i)` of an `unsigned long long`. -/
def load_ull (array : List Nat) (i : Nat) : Outcome Nat :=
  match array[i]? with
  | some v => .ok v
  | none => .fault .out_of_bounds

/-- Loop of `read_most_significant_bit` (lines 85-88); it returns the values
of `start_var` and `clz` on exit.  `fuel` bounds the number of evaluations of
the loop test. -/
def read_most_significant_bit_loop (array : List Nat) (size : Nat) :
    Nat → Nat → Nat → Outcome (Nat × Nat)
  | 0, _, _ => .fault .out_of_fuel
  | fuel + 1, start_var, clz =>
    if clz = 0 then
      match load_ull array (wrap_ring start_var (size / size_ull64)) with
      | .fault f => .fault f
      | .ok w =>
        match builtin_clzll w with
        | .fault f => .fault f
        | .ok clz' =>
          read_most_significant_bit_loop array size fuel
            (wrap_ring start_var (size / size_ull64)) clz'
    else .ok (start_var, clz)

/-- Function `read_most_significant_bit(array, start, size)`; the result is a
`uint32_t`, computed in `unsigned int`. -/
def read_most_significant_bit (fuel : Nat) (array : List Nat) (start size : Nat) :
    Outcome Nat :=
  let start_var := start / size_ull64
  match load_ull array start_var with
  | .fault f => .fault f
  | .ok w =>
    match builtin_clzll w with
    | .fault f => .fault f
    | .ok clz =>
      match read_most_significant_bit_loop array size fuel start_var clz with
      | .fault f => .fault f
      | .ok (start_var', clz') =>
        if start_var' = 0 then .ok ((size_ull64 + 4294967296 - clz' - 1) % 4294967296)
        else .ok (((start_var' * size_ull64) % 4294967296 + 4294967296 - clz') % 4294967296)

/-! ## The queries with the memory threaded through

The same three functions, each access returning the backing array as it is
after the access, so that the effect of a call on the array can be stated. -/

/-- Model of `__atomic_load_n(array + i, _)` that also returns the array after
the load. -/
def atomic_load_mem (array : Bitmap) (i : Nat) : Outcome (Nat × Bitmap) :=
  match array[i]? with
  | some v => .ok (v, array)
  | none => .fault .out_of_bounds

/-- Function `read_bit(array, index)`, with the array after the call. -/
def read_bit_mem (array : Bitmap) (index : Nat) : Outcome (Bool × Bitmap) :=
  let start_var := index / size_ull
  let offset := index % size_ull
  let bit := (1 <<< offset) % 4294967296
  match atomic_load_mem array start_var with
  | .fault f => .fault f
  | .ok (var, array') => .ok (decide (bit &&& var ≠ 0), array')

/-- Loop of `read_batch64` (lines 118-123), with the array after the loop. -/
def read_batch64_mem_loop (size : Nat) : Nat → Bitmap → Nat → Nat → Outcome (Nat × Bitmap)
  | 0, _, _, _ => .fault .out_of_fuel
  | fuel + 1, array, start_var, processed =>
    match atomic_load_mem array start_var with
    | .fault f => .fault f
    | .ok (var, array') =>
      if var = UINT_MAX then
        read_batch64_mem_loop size fuel array' (wrap_ring start_var (size / size_ull))
          ((processed + size_ull) % 4294967296)
      else .ok (processed, array')

/-- Function `read_batch64(array, start, size)`, with the array after the
call. -/
def read_batch64_mem (fuel : Nat) (array : Bitmap) (start size : Nat) :
    Outcome (Nat × Bitmap) :=
  read_batch64_mem_loop size fuel array (start / size_ull) 0

/-- Loop of `read_end_batch64` (lines 105-108), with the array after the
loop. -/
def read_end_batch64_mem_loop (size : Nat) : Nat → Bitmap → Nat → Outcome (Nat × Bitmap)
  | 0, _, _ => .fault .out_of_fuel
  | fuel + 1, array, start_var =>
    match atomic_load_mem array start_var with
    | .fault f => .fault f
    | .ok (var, array') =>
      if var = UINT_MAX then
        read_end_batch64_mem_loop size fuel array' (wrap_ring start_var (size / size_ull))
      else .ok ((start_var * size_ull) % 4294967296, array')

/-- Function `read_end_batch64(array, start, size)`, with the array after the
call. -/
def read_end_batch64_mem (fuel : Nat) (array : Bitmap) (start size : Nat) :
    Outcome (Nat × Bitmap) :=
  read_end_batch64_mem_loop size fuel array (start / size_ull)

/-! ## Concurrent calls of `write_bit` on one word

Several threads run `write_bit` on indices of the same word.  The shared
state is that word; every atomic load (line 60) and every compare-exchange
(line 66) is one indivisible step, and a schedule says which thread takes the
next step. -/

/-- Where a thread stands in `write_bit`. -/
inductive Pc where
  /-- About to run the load of line 60. -/
  | at_load
  /-- About to run the compare-exchange of line 66, `var2` being the value
  it loaded. -/
  | at_cas (var2 : Nat)
  /-- Past the loop. -/
  | returned
  deriving DecidableEq, Repr

/-- A thread in `write_bit`: its mask `varr` and where it stands. -/
structure Writer where
  varr : Nat
  pc : Pc
  deriving DecidableEq, Repr

/-- The shared word and the threads. -/
structure Race where
  word : Nat
  writers : List Writer
  deriving DecidableEq, Repr

/-- A thread that enters `write_bit(array, bit)`: lines 52-56. -/
def Writer.enter (bit : Nat) : Writer :=
  { varr := (1 <<< (bit % size_ull)) % 4294967296, pc := .at_load }

/-- One step of a thread on the shared word.  The compare-exchange is weak:
`spurious` tells whether it fails although the word holds the expected value.
On success it stores `var3 = varr | var2`. -/
def writer_step (word : Nat) (t : Writer) (spurious : Bool) : Nat × Writer :=
  match t.pc with
  | .at_load => (word, { t with pc := .at_cas word })
  | .at_cas var2 =>
    if word = var2 ∧ spurious = false then (t.varr ||| var2, { t with pc := .returned })
    else (word, { t with pc := .at_load })
  | .returned => (word, t)

/-- Thread `i` takes one step. -/
def race_step (s : Race) (i : Nat) (spurious : Bool) : Race :=
  match s.writers[i]? with
  | none => s
  | some t =>
    { word := (writer_step s.word t spurious).1,
      writers := s.writers.set i (writer_step s.word t spurious).2 }

/-- The state after a schedule: a list of thread numbers, each with the
choice for a weak compare-exchange. -/
def race_run (s : Race) : List (Nat × Bool) → Race
  | [] => s
  | (i, spurious) :: rest => race_run (race_step s i spurious) rest

/-- Bitwise or of the masks of the threads that have returned. -/
def returned_mask : List Writer → Nat
  | [] => 0
  | t :: ts => if t.pc = .returned then t.varr ||| returned_mask ts else returned_mask ts

/-! ## `write_batch64` with the memory and the words examined

The same loop, returning whatever way it ends: the array as the loop leaves
it, the number of words it has examined (the loads of line 35 that took
place), and how it ended. -/

/-- Loop of `write_batch64` (lines 33-45) with the array left behind, the
count of words examined and the way the loop ended. -/
def write_batch64_mem_loop (end_ size_array size : Nat) :
    Nat → Bitmap → Nat → Nat → Nat → Bitmap × Nat × Outcome Unit
  | 0, array, _, _, examined => (array, examined, .fault .out_of_fuel)
  | fuel + 1, array, start_var, step, examined =>
    if step = end_ then (array, examined, .ok ())
    else
      match atomic_load array start_var with
      | .fault f => (array, examined, .fault f)
      | .ok var =>
        if var ≠ UINT_MAX then (array, examined + 1, .fault .exit_failure)
        else
          match atomic_store array start_var 0 with
          | .fault f => (array, examined + 1, .fault f)
          | .ok array' =>
            write_batch64_mem_loop end_ size_array size fuel array'
              (wrap_ring start_var size_array) (wrap_ring_n step size_ull size)
              (examined + 1)

/-- Function `write_batch64(array, start, end, size)` with the array left
behind, the count of words examined and the way the call ended. -/
def write_batch64_mem (fuel : Nat) (array : Bitmap) (start end_ size : Nat) :
    Bitmap × Nat × Outcome Unit :=
  write_batch64_mem_loop end_ ((size / size_ull) % 256) size fuel array (start / size_ull)
    start 0

/-! ## Basic facts about the accesses -/

theorem or_retry_succ (array : Bitmap) (i mask fuel : Nat) :
    or_retry array i mask (fuel + 1) =
      match array[i]? with
      | some v => .ok (array.set i (v ||| mask))
      | none => .fault .out_of_bounds := by
  simp only [or_retry, atomic_load, atomic_compare_exchange]
  cases h : array[i]? <;> simp [h]

theorem or_retry_of_lt (array : Bitmap) (i mask fuel : Nat) (hi : i < array.length)
    (hfuel : 0 < fuel) :
    or_retry array i mask fuel = .ok (array.set i (array[i] ||| mask)) := by
  obtain ⟨f, rfl⟩ : ∃ f, fuel = f + 1 := ⟨fuel - 1, by omega⟩
  rw [or_retry_succ, List.getElem?_eq_getElem hi]

theorem set_getElem_same (l : List Nat) (i : Nat) (h : i < l.length) : l.set i l[i] = l := by
  apply List.ext_getElem (by simp)
  intro n h1 h2
  rw [List.getElem_set]
  split
  · next h3 => subst h3; rfl
  · rfl

theorem one_shl_mod (o : Nat) (ho : o < 32) : (1 <<< o) % 4294967296 = 2 ^ o := by
  rw [Nat.one_shiftLeft]
  exact Nat.mod_eq_of_lt (Nat.pow_lt_pow_right (by norm_num) ho)

theorem two_pow_and_ne_zero (o v : Nat) : (2 ^ o &&& v ≠ 0) ↔ v.testBit o = true := by
  rw [Nat.two_pow_and]
  cases h : v.testBit o <;> simp [h]

/-- What `read_bit` computes: bit `index % 32` of word `index / 32`. -/
theorem read_bit_eq (array : Bitmap) (index : Nat) :
    read_bit array index =
      match array[index / 32]? with
      | some v => .ok (v.testBit (index % 32))
      | none => .fault .out_of_bounds := by
  have h2 := one_shl_mod (index % 32) (Nat.mod_lt _ (by norm_num))
  simp only [read_bit, atomic_load, size_ull]
  cases h : array[index / 32]? with
  | none => rfl
  | some v =>
    simp only [h2]
    congr 1
    cases hb : v.testBit (index % 32) <;> simp [two_pow_and_ne_zero, hb]

theorem read_bit_of_lt (array : Bitmap) (index : Nat) (h : index / 32 < array.length) :
    read_bit array index = .ok (array[index / 32].testBit (index % 32)) := by
  rw [read_bit_eq, List.getElem?_eq_getElem h]

/-- What `write_bit` computes: bit `bit % 32` is or-ed into word `bit / 32`. -/
theorem write_bit_of_lt (fuel : Nat) (array : Bitmap) (bit : Nat)
    (h : bit / 32 < array.length) (hfuel : 0 < fuel) :
    write_bit fuel array bit =
      .ok (array.set (bit / 32) (array[bit / 32] ||| 2 ^ (bit % 32))) := by
  simp only [write_bit, size_ull]
  rw [or_retry_of_lt _ _ _ _ h hfuel, one_shl_mod _ (Nat.mod_lt _ (by norm_num))]

theorem word_index_lt (size index : Nat) (hsize : 32 ∣ size) (hidx : index < size) :
    index / 32 < size / 32 := by
  obtain ⟨k, rfl⟩ := hsize
  omega

/-- A 32-bit word is `UINT_MAX` exactly when its 32 low bits are set. -/
theorem eq_UINT_MAX_iff (v : Nat) (hv : v < 4294967296) :
    v = UINT_MAX ↔ ∀ i, i < 32 → v.testBit i = true := by
  constructor
  · rintro rfl i hi
    have := Nat.testBit_two_pow_sub_one 32 i
    simpa [UINT_MAX, hi] using this
  · intro h
    apply Nat.eq_of_testBit_eq
    intro i
    have h1 : UINT_MAX.testBit i = decide (i < 32) := Nat.testBit_two_pow_sub_one 32 i
    rw [h1]
    by_cases hi : i < 32
    · simp [hi, h i hi]
    · have : v < 2 ^ i :=
        lt_of_lt_of_le hv (by
          have : (2 : Nat) ^ 32 ≤ 2 ^ i := Nat.pow_le_pow_right (by norm_num) (by omega)
          simpa using this)
      simp [hi, Nat.testBit_lt_two_pow this]

/-! ## Single slots: `write_bit` and `read_bit` -/

/-- C1: for a power-of-two ring size that is a multiple of 32, any bitmap of
`size / 32` words and any `index < size`, `write_bit` returns, and `read_bit`
of the same index is then true (also for `index % 32 = 31`). -/
theorem write_bit_then_read_bit (size : Nat) (hsize : RingSize size) (array : Bitmap)
    (hlen : array.length = size / 32) (index : Nat) (hidx : index < size)
    (fuel : Nat) (hfuel : 0 < fuel) :
    ∃ array', write_bit fuel array index = .ok array' ∧
      read_bit array' index = .ok true := by
  have hi : index / 32 < array.length := hlen ▸ word_index_lt size index hsize.2 hidx
  refine ⟨_, write_bit_of_lt fuel array index hi hfuel, ?_⟩
  rw [read_bit_of_lt _ _ (by simpa using hi)]
  simp [Nat.testBit_lor, Nat.testBit_two_pow_self]

theorem write_bit_then_read_bit_witness :
    ∃ array', write_bit 1 [0, 0, 2147483647, 0] 95 = .ok array' ∧
      read_bit array' 95 = .ok true :=
  write_bit_then_read_bit 128 ⟨⟨7, by decide⟩, by decide⟩ [0, 0, 2147483647, 0] (by decide)
    95 (by decide) 1 (by decide)

/-- C8: in a bitmap of 32-bit words, word `w` holds `UINT_MAX` (the value
tested by `read_batch64`, `read_end_batch64` and `write_batch64`) if and only
if `read_bit` is true for each of its 32 slots `32 * w + i`. -/
theorem word_all_ones_iff_read_bits (size : Nat) (array : Bitmap) (hwords : Words32 array)
    (hlen : array.length = size / 32) (w : Nat) (hw : w < size / 32) :
    atomic_load array w = .ok UINT_MAX ↔
      ∀ i, i < 32 → read_bit array (32 * w + i) = .ok true := by
  have hw' : w < array.length := hlen ▸ hw
  have hv : array[w] < 4294967296 := hwords _ (List.getElem_mem _)
  have hload : atomic_load array w = .ok array[w] := by
    simp [atomic_load, List.getElem?_eq_getElem hw']
  have hrb : ∀ i, i < 32 → read_bit array (32 * w + i) = .ok (array[w].testBit i) := by
    intro i hi
    have h1 : (32 * w + i) / 32 = w := by omega
    have h2 : (32 * w + i) % 32 = i := by omega
    rw [read_bit_eq, h1, h2, List.getElem?_eq_getElem hw']
  rw [hload]
  constructor
  · intro h i hi
    rw [hrb i hi]
    have h' : array[w] = UINT_MAX := by injection h
    rw [(eq_UINT_MAX_iff _ hv).1 h' i hi]
  · intro h
    have : array[w] = UINT_MAX := (eq_UINT_MAX_iff _ hv).2 (fun i hi => by
      have := h i hi
      rw [hrb i hi] at this
      injection this)
    rw [this]

theorem word_all_ones_iff_read_bits_witness :
    atomic_load [0, 4294967295, 5, 0] 1 = .ok UINT_MAX ↔
      ∀ i, i < 32 → read_bit [0, 4294967295, 5, 0] (32 * 1 + i) = .ok true :=
  word_all_ones_iff_read_bits 128 [0, 4294967295, 5, 0] (by unfold Words32; decide)
    (by decide) 1 (by decide)

/-- C9: `write_bit` is idempotent: a second call on the same index returns
the bitmap the first call produced, and a call on a slot that already reads
true returns the bitmap it was given. -/
theorem write_bit_idempotent (size : Nat) (hsize : RingSize size) (array : Bitmap)
    (hlen : array.length = size / 32) (index : Nat) (hidx : index < size)
    (fuel : Nat) (hfuel : 0 < fuel) :
    (∃ array', write_bit fuel array index = .ok array' ∧
      write_bit fuel array' index = .ok array') ∧
    (read_bit array index = .ok true → write_bit fuel array index = .ok array) := by
  have hi : index / 32 < array.length := hlen ▸ word_index_lt size index hsize.2 hidx
  constructor
  · refine ⟨_, write_bit_of_lt fuel array index hi hfuel, ?_⟩
    rw [write_bit_of_lt fuel _ index (by simpa using hi) hfuel]
    simp [Nat.lor_assoc]
  · intro h
    rw [read_bit_of_lt _ _ hi] at h
    have hb : array[index / 32].testBit (index % 32) = true := by injection h
    rw [write_bit_of_lt fuel array index hi hfuel]
    have : array[index / 32] ||| 2 ^ (index % 32) = array[index / 32] := by
      apply Nat.eq_of_testBit_eq
      intro j
      rw [Nat.testBit_lor, Nat.testBit_two_pow]
      by_cases hj : index % 32 = j
      · subst hj; simp [hb]
      · simp [hj]
    rw [this, set_getElem_same]

theorem write_bit_idempotent_witness :
    (∃ array', write_bit 2 [6, 0] 33 = .ok array' ∧
      write_bit 2 array' 33 = .ok array') ∧
    (read_bit [6, 0] 33 = .ok true → write_bit 2 [6, 0] 33 = .ok [6, 0]) :=
  write_bit_idempotent 64 ⟨⟨6, by decide⟩, by decide⟩ [6, 0] (by decide) 33 (by decide)
    2 (by decide)

/-! ## Ring arithmetic -/

theorem ringSize_words (size : Nat) (hsize : RingSize size) :
    ∃ m, size / 32 = 2 ^ m ∧ size = 32 * 2 ^ m := by
  obtain ⟨⟨n, rfl⟩, h32⟩ := hsize
  have h5 : 5 ≤ n := by
    have : (2 : Nat) ^ 5 ∣ 2 ^ n := by simpa using h32
    exact (Nat.pow_dvd_pow_iff_le_right (by norm_num)).1 this
  refine ⟨n - 5, ?_, ?_⟩
  · have : (2 : Nat) ^ n / 2 ^ 5 = 2 ^ (n - 5) := Nat.pow_div h5 (by norm_num)
    simpa using this
  · have : (2 : Nat) ^ 5 * 2 ^ (n - 5) = 2 ^ n := by
      rw [← Nat.pow_add]; congr 1; omega
    simpa using this.symm

theorem lt_of_two_pow_lt (m b : Nat) (h : 2 ^ m < 2 ^ b) : m < b := by
  by_contra hc
  have : (2 : Nat) ^ b ≤ 2 ^ m := Nat.pow_le_pow_right (by norm_num) (by omega)
  omega

theorem pred_as_unsigned_two_pow (m : Nat) (hm : m ≤ 16) :
    pred_as_unsigned (2 ^ m) = 2 ^ m - 1 := by
  have hpos : 0 < 2 ^ m := Nat.pos_pow_of_pos _ (by norm_num)
  have hle : 2 ^ m ≤ 65536 := by
    have : (2 : Nat) ^ m ≤ 2 ^ 16 := Nat.pow_le_pow_right (by norm_num) hm
    simpa using this
  unfold pred_as_unsigned
  have : 2 ^ m + 4294967295 = (2 ^ m - 1) + 4294967296 := by omega
  rw [this, Nat.add_mod_right, Nat.mod_eq_of_lt (by omega)]

/-- On a power-of-two ring of at most `2 ^ 16` entries `wrap_ring` is the
successor modulo the ring size. -/
theorem wrap_ring_two_pow (index m : Nat) (hm : m ≤ 16) (hidx : index < 4294967295) :
    wrap_ring index (2 ^ m) = (index + 1) % 2 ^ m := by
  have hpos : 0 < 2 ^ m := Nat.pos_pow_of_pos _ (by norm_num)
  have hle : 2 ^ m ≤ 65536 := by
    have : (2 : Nat) ^ m ≤ 2 ^ 16 := Nat.pow_le_pow_right (by norm_num) hm
    simpa using this
  unfold wrap_ring
  rw [pred_as_unsigned_two_pow m hm, Nat.mod_eq_of_lt (by omega : index + 1 < 4294967296),
    Nat.and_pow_two_sub_one_eq_mod]
  exact Nat.mod_eq_of_lt (lt_of_lt_of_le (Nat.mod_lt _ hpos) hle)

/-- On a power-of-two ring of at most `2 ^ 16` entries `wrap_ring_n` adds
modulo the ring size. -/
theorem wrap_ring_n_two_pow (index n m : Nat) (hm : m ≤ 16)
    (hidx : index + n < 4294967296) :
    wrap_ring_n index n (2 ^ m) = (index + n) % 2 ^ m := by
  have hpos : 0 < 2 ^ m := Nat.pos_pow_of_pos _ (by norm_num)
  have hle : 2 ^ m ≤ 65536 := by
    have : (2 : Nat) ^ m ≤ 2 ^ 16 := Nat.pow_le_pow_right (by norm_num) hm
    simpa using this
  unfold wrap_ring_n
  rw [pred_as_unsigned_two_pow m hm, Nat.mod_eq_of_lt hidx, Nat.and_pow_two_sub_one_eq_mod]
  exact Nat.mod_eq_of_lt (lt_of_lt_of_le (Nat.mod_lt _ hpos) hle)

theorem atomic_load_of_lt (array : Bitmap) (i : Nat) (h : i < array.length) :
    atomic_load array i = .ok array[i] := by
  simp [atomic_load, List.getElem?_eq_getElem h]

theorem mod_succ_add (a j nw : Nat) : ((a + 1) % nw + j) % nw = (a + (j + 1)) % nw := by
  rw [Nat.mod_add_mod]; congr 1; omega

/-- The facts about a valid ring that the word scans use: `size / 32 = nw`
words, and `wrap_ring` is the successor modulo `nw` on word indices. -/
theorem ring_scan_facts (size : Nat) (hsize : RingSize size) (h16 : size < 65536) :
    0 < size / 32 ∧ 32 * (size / 32) = size ∧
      ∀ i, i < size / 32 → wrap_ring i (size / 32) = (i + 1) % (size / 32) := by
  obtain ⟨m, hm, hs⟩ := ringSize_words size hsize
  have hpos : 0 < 2 ^ m := Nat.pos_pow_of_pos _ (by norm_num)
  have hm16 : m < 16 := lt_of_two_pow_lt m 16 (by omega)
  refine ⟨by omega, by omega, ?_⟩
  intro i hi
  rw [hm]
  exact wrap_ring_two_pow i m (by omega) (by omega)

/-! ## The scan `read_batch64` -/

/-- Total form: a run of `k` full words followed by a word that is not full
makes the loop return after `k` iterations. -/
theorem read_batch64_loop_run (array : Bitmap) (size nw : Nat) (hnw : size / 32 = nw)
    (hwrap : ∀ i, i < nw → wrap_ring i nw = (i + 1) % nw) (hlen : array.length = nw) :
    ∀ (k fuel start_var processed : Nat), start_var < nw → k < fuel →
      processed + 32 * k < 4294967296 →
      (∀ j, j < k → atomic_load array ((start_var + j) % nw) = .ok UINT_MAX) →
      atomic_load array ((start_var + k) % nw) ≠ .ok UINT_MAX →
      read_batch64_loop array size fuel start_var processed = .ok (processed + 32 * k) := by
  intro k
  induction k with
  | zero =>
    intro fuel sv p hsv hfuel _ _ hk
    obtain ⟨f, rfl⟩ : ∃ f, fuel = f + 1 := ⟨fuel - 1, by omega⟩
    rw [Nat.add_zero, Nat.mod_eq_of_lt hsv] at hk
    rw [read_batch64_loop]
    rw [atomic_load_of_lt _ _ (hlen ▸ hsv)] at hk ⊢
    have : array[sv] ≠ UINT_MAX := fun h => hk (by rw [h])
    simp [this]
  | succ k ih =>
    intro fuel sv p hsv hfuel hp hrun hk
    obtain ⟨f, rfl⟩ : ∃ f, fuel = f + 1 := ⟨fuel - 1, by omega⟩
    have h0 := hrun 0 (by omega)
    rw [Nat.add_zero, Nat.mod_eq_of_lt hsv] at h0
    have hpos : 0 < nw := by omega
    rw [read_batch64_loop, h0]
    simp only [if_true, size_ull, hnw, hwrap sv hsv]
    rw [Nat.mod_eq_of_lt (by omega : p + 32 < 4294967296)]
    rw [ih f ((sv + 1) % nw) (p + 32) (Nat.mod_lt _ hpos) (by omega) (by omega)]
    · congr 1; omega
    · intro j hj
      rw [mod_succ_add]
      exact hrun (j + 1) (by omega)
    · rw [mod_succ_add]
      exact hk

/-- Partial form: a returned count describes a run of full words that ends
at a word that is not full. -/
theorem read_batch64_loop_ok (array : Bitmap) (size nw : Nat) (hnw : size / 32 = nw)
    (hwrap : ∀ i, i < nw → wrap_ring i nw = (i + 1) % nw) (hlen : array.length = nw) :
    ∀ (fuel start_var processed count : Nat), start_var < nw →
      read_batch64_loop array size fuel start_var processed = .ok count →
      ∃ k, k < fuel ∧
        (∀ j, j < k → atomic_load array ((start_var + j) % nw) = .ok UINT_MAX) ∧
        atomic_load array ((start_var + k) % nw) ≠ .ok UINT_MAX := by
  intro fuel
  induction fuel with
  | zero =>
    intro sv p c hsv h
    simp [read_batch64_loop] at h
  | succ f ih =>
    intro sv p c hsv h
    have hpos : 0 < nw := by omega
    rw [read_batch64_loop, atomic_load_of_lt _ _ (hlen ▸ hsv)] at h
    by_cases hv : array[sv] = UINT_MAX
    · simp only [hv, if_true, size_ull, hnw, hwrap sv hsv] at h
      obtain ⟨k, hk, hrun, hstop⟩ := ih _ _ _ (Nat.mod_lt _ hpos) h
      refine ⟨k + 1, by omega, ?_, ?_⟩
      · intro j hj
        rcases j with _ | j
        · rw [Nat.add_zero, Nat.mod_eq_of_lt hsv, atomic_load_of_lt _ _ (hlen ▸ hsv), hv]
        · rw [← mod_succ_add]
          exact hrun j (by omega)
      · rw [← mod_succ_add]
        exact hstop
    · refine ⟨0, by omega, fun j hj => absurd hj (by omega), ?_⟩
      rw [Nat.add_zero, Nat.mod_eq_of_lt hsv, atomic_load_of_lt _ _ (hlen ▸ hsv)]
      intro hc
      exact hv (by injection hc)

theorem exists_offset_to (sv i nw : Nat) (hsv : sv < nw) (hi : i < nw) :
    ∃ k, k < nw ∧ (sv + k) % nw = i := by
  refine ⟨(i + nw - sv) % nw, Nat.mod_lt _ (by omega), ?_⟩
  rw [Nat.add_mod_mod]
  have : sv + (i + nw - sv) = i + nw := by omega
  rw [this, Nat.add_mod_right, Nat.mod_eq_of_lt hi]

/-- The scan of `read_batch64` on a valid ring with a word that is not full:
it stops at the first such word met from word `start / 32` on, and returns 32
times the number of full words before it. -/
theorem read_batch64_scan (size : Nat) (hsize : RingSize size) (h16 : size < 65536)
    (array : Bitmap) (hlen : array.length = size / 32)
    (hsome : ∃ w ∈ array, w ≠ UINT_MAX) (start : Nat) (hstart : start < size) :
    ∃ k, k < size / 32 ∧
      atomic_load array ((start / 32 + k) % (size / 32)) ≠ .ok UINT_MAX ∧
      (∀ j, j < k → atomic_load array ((start / 32 + j) % (size / 32)) = .ok UINT_MAX) ∧
      ∀ fuel, k < fuel → read_batch64 fuel array start size = .ok (32 * k) := by
  obtain ⟨hpos, hmul, hwrap⟩ := ring_scan_facts size hsize h16
  have hsv : start / 32 < size / 32 := word_index_lt size start hsize.2 hstart
  obtain ⟨w, hw, hne⟩ := hsome
  obtain ⟨i, hi, hiw⟩ := List.getElem_of_mem hw
  obtain ⟨k1, hk1, hk1i⟩ := exists_offset_to (start / 32) i (size / 32) hsv (hlen ▸ hi)
  have hP1 : atomic_load array ((start / 32 + k1) % (size / 32)) ≠ .ok UINT_MAX := by
    rw [hk1i, atomic_load_of_lt _ _ hi, hiw]
    intro hc
    exact hne (by injection hc)
  have hex : ∃ k, atomic_load array ((start / 32 + k) % (size / 32)) ≠ .ok UINT_MAX :=
    ⟨k1, hP1⟩
  have hk : Nat.find hex < size / 32 := lt_of_le_of_lt (Nat.find_min' hex hP1) hk1
  refine ⟨Nat.find hex, hk, Nat.find_spec hex,
    fun j hj => not_not.1 (Nat.find_min hex hj), ?_⟩
  intro fuel hfuel
  have := read_batch64_loop_run array size (size / 32) rfl hwrap hlen (Nat.find hex) fuel
    (start / 32) 0 hsv hfuel (by omega) (fun j hj => not_not.1 (Nat.find_min hex hj))
    (Nat.find_spec hex)
  simpa [read_batch64, size_ull] using this

/-- Whatever `read_batch64` returns on a valid ring is 32 times a number of
words smaller than the word count. -/
theorem read_batch64_ok_count (size : Nat) (hsize : RingSize size) (h16 : size < 65536)
    (array : Bitmap) (hlen : array.length = size / 32) (start : Nat) (hstart : start < size)
    (fuel count : Nat) (h : read_batch64 fuel array start size = .ok count) :
    ∃ k, k < size / 32 ∧ count = 32 * k := by
  obtain ⟨hpos, hmul, hwrap⟩ := ring_scan_facts size hsize h16
  have hsv : start / 32 < size / 32 := word_index_lt size start hsize.2 hstart
  have h' : read_batch64_loop array size fuel (start / 32) 0 = .ok count := by
    simpa [read_batch64, size_ull] using h
  obtain ⟨k, hkf, hrun, hstop⟩ :=
    read_batch64_loop_ok array size (size / 32) rfl hwrap hlen fuel (start / 32) 0 count hsv h'
  have hk : k < size / 32 := by
    by_contra hc
    have hj := hrun (k - size / 32) (by omega)
    have : start / 32 + k = start / 32 + (k - size / 32) + size / 32 := by omega
    rw [this, Nat.add_mod_right] at hstop
    exact hstop hj
  refine ⟨k, hk, ?_⟩
  have := read_batch64_loop_run array size (size / 32) rfl hwrap hlen k fuel
    (start / 32) 0 hsv hkf (by omega) hrun hstop
  rw [h'] at this
  have h2 : count = 0 + 32 * k := by injection this
  omega

/-- C4: on a valid ring with at least one word that is not `UINT_MAX`,
`read_batch64` returns `32 * k` for the least `k` such that word
`(start / 32 + k) % (size / 32)` is not `UINT_MAX`. -/
theorem read_batch64_counts_full_run (size : Nat) (hsize : RingSize size)
    (h16 : size < 65536) (array : Bitmap) (hlen : array.length = size / 32)
    (hsome : ∃ w ∈ array, w ≠ UINT_MAX) (start : Nat) (hstart : start < size) :
    ∃ k, k < size / 32 ∧
      atomic_load array ((start / 32 + k) % (size / 32)) ≠ .ok UINT_MAX ∧
      (∀ j, j < k → atomic_load array ((start / 32 + j) % (size / 32)) = .ok UINT_MAX) ∧
      ∀ fuel, k < fuel → read_batch64 fuel array start size = .ok (32 * k) :=
  read_batch64_scan size hsize h16 array hlen hsome start hstart

theorem read_batch64_counts_full_run_witness :
    ∃ k, k < 128 / 32 ∧
      atomic_load [4294967295, 7, 4294967295, 4294967295] ((70 / 32 + k) % (128 / 32))
        ≠ .ok UINT_MAX ∧
      (∀ j, j < k →
        atomic_load [4294967295, 7, 4294967295, 4294967295] ((70 / 32 + j) % (128 / 32))
          = .ok UINT_MAX) ∧
      ∀ fuel, k < fuel →
        read_batch64 fuel [4294967295, 7, 4294967295, 4294967295] 70 128 = .ok (32 * k) :=
  read_batch64_counts_full_run 128 ⟨⟨7, by decide⟩, by decide⟩ (by decide)
    [4294967295, 7, 4294967295, 4294967295] (by decide) ⟨7, by decide, by decide⟩ 70
    (by decide)

/-- C5: on a valid ring every count returned by `read_batch64` is a multiple
of 32 and at most the ring size; and a count is returned, within `size / 32`
loop tests, whenever some word is not `UINT_MAX`. -/
theorem read_batch64_count_multiple_and_bounded (size : Nat) (hsize : RingSize size)
    (h16 : size < 65536) (array : Bitmap) (hlen : array.length = size / 32)
    (start : Nat) (hstart : start < size) :
    (∀ fuel count, read_batch64 fuel array start size = .ok count →
      32 ∣ count ∧ count ≤ size) ∧
    ((∃ w ∈ array, w ≠ UINT_MAX) →
      ∃ count, read_batch64 (size / 32) array start size = .ok count) := by
  obtain ⟨hpos, hmul, _⟩ := ring_scan_facts size hsize h16
  constructor
  · intro fuel count h
    obtain ⟨k, hk, rfl⟩ :=
      read_batch64_ok_count size hsize h16 array hlen start hstart fuel count h
    exact ⟨Dvd.intro _ rfl, by omega⟩
  · intro hsome
    obtain ⟨k, hk, _, _, hres⟩ := read_batch64_scan size hsize h16 array hlen hsome start hstart
    exact ⟨32 * k, hres _ hk⟩

theorem read_batch64_count_multiple_and_bounded_witness :
    (∀ fuel count, read_batch64 fuel [4294967295, 4294967295, 3, 4294967295] 100 128
        = .ok count → 32 ∣ count ∧ count ≤ 128) ∧
    ((∃ w ∈ [4294967295, 4294967295, 3, 4294967295], w ≠ UINT_MAX) →
      ∃ count, read_batch64 (128 / 32) [4294967295, 4294967295, 3, 4294967295] 100 128
        = .ok count) :=
  read_batch64_count_multiple_and_bounded 128 ⟨⟨7, by decide⟩, by decide⟩ (by decide)
    [4294967295, 4294967295, 3, 4294967295] (by decide) 100 (by decide)

/-! ## The drain `write_batch64` -/

theorem atomic_load_set_ne (array : Bitmap) (i j v : Nat) (h : i ≠ j) :
    atomic_load (array.set i v) j = atomic_load array j := by
  simp [atomic_load, List.getElem?_set, h]

theorem atomic_store_of_lt (array : Bitmap) (i v : Nat) (h : i < array.length) :
    atomic_store array i v = .ok (array.set i v) := by
  simp [atomic_store, h]

/-- One iteration of the loop of `write_batch64` on a full word in bounds. -/
theorem write_batch64_loop_succ (end_ size_array size fuel : Nat) (array : Bitmap)
    (start_var step : Nat) (hstep : step ≠ end_) (hlt : start_var < array.length)
    (hfull : array[start_var] = UINT_MAX) :
    write_batch64_loop end_ size_array size (fuel + 1) array start_var step =
      write_batch64_loop end_ size_array size fuel (array.set start_var 0)
        (wrap_ring start_var size_array) (wrap_ring_n step size_ull size) := by
  rw [write_batch64_loop, if_neg hstep, atomic_load_of_lt _ _ hlt, hfull]
  simp [atomic_store_of_lt _ _ _ hlt]

/-- A returning loop execution went through one iteration on a full word in
bounds, unless the cursor was at `end_` already. -/
theorem write_batch64_loop_ok_inv (end_ size_array size fuel : Nat) (array array' : Bitmap)
    (start_var step : Nat) (hstep : step ≠ end_)
    (h : write_batch64_loop end_ size_array size (fuel + 1) array start_var step
      = .ok array') :
    start_var < array.length ∧
      write_batch64_loop end_ size_array size fuel (array.set start_var 0)
        (wrap_ring start_var size_array) (wrap_ring_n step size_ull size) = .ok array' := by
  rw [write_batch64_loop, if_neg hstep] at h
  by_cases hlt : start_var < array.length
  · refine ⟨hlt, ?_⟩
    rw [atomic_load_of_lt _ _ hlt] at h
    by_cases hfull : array[start_var] = UINT_MAX
    · simpa [hfull, atomic_store_of_lt _ _ _ hlt] using h
    · simp [hfull] at h
  · simp [atomic_load, List.getElem?_eq_none (not_lt.1 hlt)] at h

/-- The loop of `write_batch64` only ever stores zeros: a word that is zero
stays zero, and the length is kept. -/
theorem write_batch64_loop_zero_stays (end_ size_array size : Nat) :
    ∀ (fuel : Nat) (array array' : Bitmap) (start_var step : Nat),
      write_batch64_loop end_ size_array size fuel array start_var step = .ok array' →
      array'.length = array.length ∧ ∀ i : Nat, array[i]? = some 0 → array'[i]? = some 0 := by
  intro fuel
  induction fuel with
  | zero => intro a a' sv st h; simp [write_batch64_loop] at h
  | succ f ih =>
    intro a a' sv st h
    by_cases hstep : st = end_
    · rw [write_batch64_loop, if_pos hstep] at h
      have : a = a' := by injection h
      subst this
      exact ⟨rfl, fun i hi => hi⟩
    · obtain ⟨hlt, hrec⟩ := write_batch64_loop_ok_inv _ _ _ _ _ _ _ _ hstep h
      obtain ⟨hl, hz⟩ := ih _ _ _ _ hrec
      refine ⟨by simpa using hl, fun i hi => hz i ?_⟩
      rw [List.getElem?_set]
      by_cases hiv : sv = i
      · subst hiv; simp [hlt]
      · simpa [hiv] using hi

/-- Every word visited by a returning loop of `write_batch64` is zero at the
end. -/
theorem write_batch64_loop_drained (end_ size_array size : Nat) :
    ∀ (fuel : Nat) (array array' : Bitmap) (start_var step : Nat),
      write_batch64_loop end_ size_array size fuel array start_var step = .ok array' →
      ∀ k, (∀ j, j ≤ k → (fun s => wrap_ring_n s size_ull size)^[j] step ≠ end_) →
        array'[(fun v => wrap_ring v size_array)^[k] start_var]? = some 0 := by
  intro fuel
  induction fuel with
  | zero => intro a a' sv st h; simp [write_batch64_loop] at h
  | succ f ih =>
    intro a a' sv st h k hk
    have hstep : st ≠ end_ := by simpa using hk 0 (Nat.zero_le _)
    obtain ⟨hlt, hrec⟩ := write_batch64_loop_ok_inv _ _ _ _ _ _ _ _ hstep h
    rcases k with _ | k
    · refine (write_batch64_loop_zero_stays _ _ _ _ _ _ _ _ hrec).2 sv ?_
      simp [List.getElem?_set, hlt]
    · rw [Function.iterate_succ_apply]
      refine ih _ _ _ _ hrec k ?_
      intro j hj
      have := hk (j + 1) (by omega)
      rwa [Function.iterate_succ_apply] at this

/-- C6: when `write_batch64` returns normally, `read_bit` is false for each
of the 32 slots of every word it visited, that is of word
`write_batch64_var start size k` for every `k` such that the step cursor had
not reached `end_` after `0, 1, ..., k` iterations. -/
theorem write_batch64_drained_slots_read_false (fuel : Nat) (array array' : Bitmap)
    (start end_ size : Nat)
    (h : write_batch64 fuel array start end_ size = .ok array') (k : Nat)
    (hk : ∀ j, j ≤ k → write_batch64_step start size j ≠ end_) (i : Nat) (hi : i < 32) :
    read_bit array' (32 * write_batch64_var start size k + i) = .ok false := by
  have hz := write_batch64_loop_drained end_ ((size / size_ull) % 256) size fuel array array'
    (start / size_ull) start h k hk
  have h1 : (32 * write_batch64_var start size k + i) / 32 = write_batch64_var start size k := by
    omega
  rw [read_bit_eq, h1]
  unfold write_batch64_var
  rw [hz]
  simp

theorem write_batch64_drained_slots_read_false_witness :
    read_bit [7, 0, 0, 9] (32 * write_batch64_var 32 128 1 + 31) = .ok false :=
  write_batch64_drained_slots_read_false 3 [7, 4294967295, 4294967295, 9] [7, 0, 0, 9]
    32 96 128 (by decide) 1 (by decide) 31 (by decide)

theorem add_mod_ne_self (a t n : Nat) (ha : a < n) (ht0 : 0 < t) (htn : t < n) :
    (a + t) % n ≠ a := by
  by_cases h : a + t < n
  · rw [Nat.mod_eq_of_lt h]; omega
  · rw [Nat.mod_eq_sub_mod (by omega), Nat.mod_eq_of_lt (by omega)]; omega

/-- The facts about a valid ring of at most 4096 entries that `write_batch64`
and `write_batch_is_done` use: the `uint8_t` word count is exact and both
cursors advance modulo the ring. -/
theorem ring_drain_facts (size : Nat) (hsize : RingSize size) (h4096 : size ≤ 4096) :
    (size / size_ull) % 256 = size / 32 ∧
      (∀ i, i < size / 32 → wrap_ring i (size / 32) = (i + 1) % (size / 32)) ∧
      (∀ s, s < size → wrap_ring_n s size_ull size = (s + 32) % size) := by
  obtain ⟨_, hmul, hwrap⟩ := ring_scan_facts size hsize (by omega)
  refine ⟨?_, hwrap, ?_⟩
  · simp only [size_ull]
    exact Nat.mod_eq_of_lt (by omega)
  · intro s hs
    obtain ⟨⟨n, rfl⟩, _⟩ := hsize
    have hn : n < 16 := lt_of_two_pow_lt n 16 (by omega)
    exact wrap_ring_n_two_pow s 32 n (by omega) (by omega)

/-- Loop of `write_batch64` on a ring of `nw` words whose cursors advance
modulo the ring, with `end_` exactly `k < nw` words ahead: if the `k` words
from `start_var` on are full, the loop returns, those words are zero and the
other words are unchanged. -/
theorem write_batch64_loop_full (size nw : Nat)
    (hwrap : ∀ i, i < nw → wrap_ring i nw = (i + 1) % nw)
    (hwrapn : ∀ s, s < size → wrap_ring_n s size_ull size = (s + 32) % size)
    (hmul : 32 * nw = size) :
    ∀ (k fuel : Nat) (array : Bitmap) (start_var step : Nat), array.length = nw →
      start_var < nw → step < size → k < nw → k < fuel →
      (∀ j, j < k → atomic_load array ((start_var + j) % nw) = .ok UINT_MAX) →
      ∃ array', write_batch64_loop ((step + 32 * k) % size) nw size fuel array start_var step
          = .ok array' ∧ array'.length = nw ∧
        (∀ j, j < k → array'[(start_var + j) % nw]? = some 0) ∧
        (∀ w : Nat, (∀ j, j < k → w ≠ (start_var + j) % nw) → array'[w]? = array[w]?) := by
  intro k
  induction k with
  | zero =>
    intro fuel a sv st hlen hsv hst _ hfuel _
    obtain ⟨f, rfl⟩ : ∃ f, fuel = f + 1 := ⟨fuel - 1, by omega⟩
    refine ⟨a, ?_, hlen, fun j hj => absurd hj (by omega), fun w _ => rfl⟩
    rw [write_batch64_loop, if_pos (by simp [Nat.mod_eq_of_lt hst])]
  | succ k ih =>
    intro fuel a sv st hlen hsv hst hk hfuel hfull
    obtain ⟨f, rfl⟩ : ∃ f, fuel = f + 1 := ⟨fuel - 1, by omega⟩
    have hne : st ≠ (st + 32 * (k + 1)) % size :=
      fun h => add_mod_ne_self st (32 * (k + 1)) size hst (by omega) (by omega) h.symm
    have hlt : sv < a.length := hlen ▸ hsv
    have h0 := hfull 0 (by omega)
    rw [Nat.add_zero, Nat.mod_eq_of_lt hsv, atomic_load_of_lt _ _ hlt] at h0
    have hv : a[sv] = UINT_MAX := by injection h0
    have hend : (st + 32 * (k + 1)) % size = ((st + 32) % size + 32 * k) % size := by
      rw [Nat.mod_add_mod]; congr 1; omega
    have hpos : 0 < nw := by omega
    have hsz : 0 < size := by omega
    rw [write_batch64_loop_succ _ _ _ _ _ _ _ hne hlt hv, hwrap sv hsv, hwrapn st hst, hend]
    obtain ⟨a', hres, hlen', hz, hframe⟩ := ih f (a.set sv 0) ((sv + 1) % nw) ((st + 32) % size)
      (by simpa using hlen) (Nat.mod_lt _ hpos) (Nat.mod_lt _ hsz) (by omega) (by omega)
      (by
        intro j hj
        rw [mod_succ_add, atomic_load_set_ne _ _ _ _
          (fun h => add_mod_ne_self sv (j + 1) nw hsv (by omega) (by omega) h.symm)]
        exact hfull (j + 1) (by omega))
    refine ⟨a', hres, hlen', ?_, ?_⟩
    · intro j hj
      rcases j with _ | j
      · rw [Nat.add_zero, Nat.mod_eq_of_lt hsv, hframe sv ?_]
        · simp [List.getElem?_set, hlt]
        · intro j hj
          rw [mod_succ_add]
          exact fun h => add_mod_ne_self sv (j + 1) nw hsv (by omega) (by omega) h.symm
      · rw [← mod_succ_add]
        exact hz j (by omega)
    · intro w hw
      rw [hframe w (fun j hj => by rw [mod_succ_add]; exact hw (j + 1) (by omega))]
      have : sv ≠ w := by
        have := hw 0 (by omega)
        rw [Nat.add_zero, Nat.mod_eq_of_lt hsv] at this
        exact fun h => this h.symm
      simp [List.getElem?_set, this]

/-- Loop of `write_batch64` under the same conditions: if one of the `k`
words from `start_var` on is not full, the loop takes the `exit(1)` branch. -/
theorem write_batch64_loop_exit (size nw : Nat)
    (hwrap : ∀ i, i < nw → wrap_ring i nw = (i + 1) % nw)
    (hwrapn : ∀ s, s < size → wrap_ring_n s size_ull size = (s + 32) % size)
    (hmul : 32 * nw = size) :
    ∀ (k fuel : Nat) (array : Bitmap) (start_var step : Nat), array.length = nw →
      start_var < nw → step < size → k < nw → k < fuel →
      (∃ j, j < k ∧ atomic_load array ((start_var + j) % nw) ≠ .ok UINT_MAX) →
      write_batch64_loop ((step + 32 * k) % size) nw size fuel array start_var step
        = .fault .exit_failure := by
  intro k
  induction k with
  | zero =>
    intro fuel a sv st _ _ _ _ _ h
    obtain ⟨j, hj, _⟩ := h
    omega
  | succ k ih =>
    intro fuel a sv st hlen hsv hst hk hfuel hex
    obtain ⟨f, rfl⟩ : ∃ f, fuel = f + 1 := ⟨fuel - 1, by omega⟩
    have hne : st ≠ (st + 32 * (k + 1)) % size :=
      fun h => add_mod_ne_self st (32 * (k + 1)) size hst (by omega) (by omega) h.symm
    have hlt : sv < a.length := hlen ▸ hsv
    by_cases hv : a[sv] = UINT_MAX
    · have hend : (st + 32 * (k + 1)) % size = ((st + 32) % size + 32 * k) % size := by
        rw [Nat.mod_add_mod]; congr 1; omega
      have hpos : 0 < nw := by omega
      have hsz : 0 < size := by omega
      rw [write_batch64_loop_succ _ _ _ _ _ _ _ hne hlt hv, hwrap sv hsv, hwrapn st hst, hend]
      refine ih f (a.set sv 0) ((sv + 1) % nw) ((st + 32) % size)
        (by simpa using hlen) (Nat.mod_lt _ hpos) (Nat.mod_lt _ hsz) (by omega) (by omega) ?_
      obtain ⟨j, hj, hjne⟩ := hex
      rcases j with _ | j
      · rw [Nat.add_zero, Nat.mod_eq_of_lt hsv, atomic_load_of_lt _ _ hlt, hv] at hjne
        exact absurd rfl hjne
      · refine ⟨j, by omega, ?_⟩
        rw [mod_succ_add, atomic_load_set_ne _ _ _ _
          (fun h => add_mod_ne_self sv (j + 1) nw hsv (by omega) (by omega) h.symm)]
        exact hjne
    · rw [write_batch64_loop, if_neg hne, atomic_load_of_lt _ _ hlt]
      simp [hv]

/-- On a valid ring of at most 4096 entries, with `end_` exactly `k` words
ahead of `start` (`k < size / 32`): `write_batch64` takes the `exit(1)`
branch if and only if one of the `k` words from word `start / 32` on is not
`UINT_MAX`, and returns normally otherwise. -/
theorem write_batch64_exit_iff (size : Nat) (hsize : RingSize size) (h4096 : size ≤ 4096)
    (array : Bitmap) (hlen : array.length = size / 32) (start : Nat) (hstart : start < size)
    (k : Nat) (hk : k < size / 32) (fuel : Nat) (hfuel : k < fuel) :
    (write_batch64 fuel array start ((start + 32 * k) % size) size = .fault .exit_failure ↔
      ∃ j, j < k ∧ atomic_load array ((start / 32 + j) % (size / 32)) ≠ .ok UINT_MAX) ∧
    ((∀ j, j < k → atomic_load array ((start / 32 + j) % (size / 32)) = .ok UINT_MAX) →
      ∃ array', write_batch64 fuel array start ((start + 32 * k) % size) size
        = .ok array') := by
  obtain ⟨hsa, hwrap, hwrapn⟩ := ring_drain_facts size hsize h4096
  obtain ⟨_, hmul, _⟩ := ring_scan_facts size hsize (by omega)
  have hsv : start / 32 < size / 32 := word_index_lt size start hsize.2 hstart
  have hfull := write_batch64_loop_full size (size / 32) hwrap hwrapn hmul k fuel array
    (start / 32) start hlen hsv hstart hk hfuel
  have hexit := write_batch64_loop_exit size (size / 32) hwrap hwrapn hmul k fuel array
    (start / 32) start hlen hsv hstart hk hfuel
  have hdef : write_batch64 fuel array start ((start + 32 * k) % size) size =
      write_batch64_loop ((start + 32 * k) % size) (size / 32) size fuel array
        (start / 32) start := by
    simp only [write_batch64, hsa]
    rfl
  rw [hdef]
  refine ⟨⟨fun h => ?_, hexit⟩, fun h => ?_⟩
  · by_contra hc
    obtain ⟨a', ha', _⟩ := hfull (fun j hj => by
      by_contra hne
      exact hc ⟨j, hj, hne⟩)
    rw [ha'] at h
    exact absurd h (by simp)
  · obtain ⟨a', ha', _⟩ := hfull h
    exact ⟨a', ha'⟩

set_option maxRecDepth 20000 in
/-- C7 (failing input): ring size 8192 (256 words, all `UINT_MAX`),
`start = 8160` in word 255 and `end_ = 32 = (8160 + 32 * 2) % 8192`.  Both
words of the run, 255 and 0, are full, yet for every fuel of at least 2 the
call neither returns nor takes the `exit(1)` branch: the `uint8_t` word count
is 0, `start_var` advances from 255 to 256 and the second load is outside the
array. -/
theorem write_batch64_ring_8192_leaves_array :
    (8160 + 32 * 2) % 8192 = 32 ∧
    (∀ j, j < 2 →
      atomic_load (List.replicate 256 UINT_MAX) ((8160 / 32 + j) % (8192 / 32))
        = .ok UINT_MAX) ∧
    write_batch64_var 8160 8192 1 = 256 ∧
    ∀ f : Nat, write_batch64 (f + 2) (List.replicate 256 UINT_MAX) 8160 32 8192
      = .fault .out_of_bounds := by
  refine ⟨by decide, by decide, by decide, fun f => rfl⟩

/-! ## The scenario on a ring of 128 slots -/

/-- C10: on the all-zero bitmap of ring size 128 (4 words), for any fuel of
at least 2: `write_batch_is_done(array, 0, 31, 128)` makes word 0 equal to
`UINT_MAX`; `read_batch64(array, 0, 128)` then returns 32;
`write_batch64(array, 0, 32, 128)` then returns and `read_bit` is false for
slots 0..31; and `read_bit(array, 32)` is false in all three states. -/
theorem scenario_ring_128 (fuel : Nat) (hfuel : 2 ≤ fuel) :
    ∃ marked drained,
      write_batch_is_done fuel [0, 0, 0, 0] 0 31 128 = .ok marked ∧
      atomic_load marked 0 = .ok UINT_MAX ∧
      read_batch64 fuel marked 0 128 = .ok 32 ∧
      write_batch64 fuel marked 0 32 128 = .ok drained ∧
      (∀ i, i < 32 → read_bit drained i = .ok false) ∧
      read_bit [0, 0, 0, 0] 32 = .ok false ∧
      read_bit marked 32 = .ok false ∧
      read_bit drained 32 = .ok false := by
  obtain ⟨f, rfl⟩ : ∃ f, fuel = f + 2 := ⟨fuel - 2, by omega⟩
  refine ⟨[4294967295, 0, 0, 0], [0, 0, 0, 0], ?_, by decide, ?_, ?_, by decide, by decide,
    by decide, by decide⟩
  · simp only [write_batch_is_done, write_batch_is_done_loop, size_ull]
    rw [if_pos (by decide)]
    simp only [or_retry_succ]
    decide
  · rfl
  · rfl

theorem scenario_ring_128_witness :
    ∃ marked drained,
      write_batch_is_done 4 [0, 0, 0, 0] 0 31 128 = .ok marked ∧
      atomic_load marked 0 = .ok UINT_MAX ∧
      read_batch64 4 marked 0 128 = .ok 32 ∧
      write_batch64 4 marked 0 32 128 = .ok drained ∧
      (∀ i, i < 32 → read_bit drained i = .ok false) ∧
      read_bit [0, 0, 0, 0] 32 = .ok false ∧
      read_bit marked 32 = .ok false ∧
      read_bit drained 32 = .ok false :=
  scenario_ring_128 4 (by decide)

/-! ## The range marker `write_batch_is_done` -/


theorem getD_set (a : Bitmap) (i v w : Nat) (hi : i < a.length) :
    (a.set i v).getD w 0 = if i = w then v else a.getD w 0 := by
  rw [List.getD_eq_getElem?_getD, List.getD_eq_getElem?_getD, List.getElem?_set]
  by_cases h : i = w
  · subst h; simp [hi]
  · simp [h]

theorem getD_of_lt (a : Bitmap) (i : Nat) (hi : i < a.length) : a.getD i 0 = a[i] := by
  rw [List.getD_eq_getElem?_getD, List.getElem?_eq_getElem hi]; rfl

theorem testBit_UINT_MAX (k : Nat) : UINT_MAX.testBit k = decide (k < 32) :=
  Nat.testBit_two_pow_sub_one 32 k

theorem testBit_high_mask (so b : Nat) :
    ((UINT_MAX <<< so) % 4294967296).testBit b = true ↔ so ≤ b ∧ b < 32 := by
  have h := Nat.testBit_mod_two_pow (UINT_MAX <<< so) 32 b
  have e : (2 : Nat) ^ 32 = 4294967296 := by norm_num
  rw [e] at h
  rw [h, Nat.testBit_shiftLeft, testBit_UINT_MAX]
  simp only [Bool.and_eq_true, decide_eq_true_eq]
  omega

theorem testBit_low_mask (eo b : Nat) (heo : eo < 32) :
    (UINT_MAX >>> ((32 + 4294967296 - eo - 1) % 4294967296)).testBit b = true ↔
      b ≤ eo := by
  have : (32 + 4294967296 - eo - 1) % 4294967296 = 31 - eo := by
    omega
  rw [this, Nat.testBit_shiftRight, testBit_UINT_MAX]
  simp only [decide_eq_true_eq]
  omega

theorem in_word_run_self (sv ev : Nat) (hne : sv ≠ ev) : in_word_run sv ev sv := by
  unfold in_word_run
  split_ifs <;> omega

theorem in_word_run_next (sv sv' ev nw w : Nat) (hev : ev < nw) (hw : w < nw)
    (hne : sv ≠ ev)
    (hsv' : (sv + 1 = nw ∧ sv' = 0) ∨ (sv + 1 < nw ∧ sv' = sv + 1)) :
    in_word_run sv ev w ↔ (w = sv ∨ in_word_run sv' ev w) := by
  unfold in_word_run
  split_ifs <;> omega

theorem write_batch_is_done_loop_spec (nw sa ev cf : Nat) (hcf : 0 < cf) (hev : ev < nw) :
    ∀ (d fuel : Nat) (a : Bitmap) (sv so : Nat), a.length = nw → sv < nw →
      (if sv ≤ ev then ev - sv else ev + nw - sv) = d → d < fuel →
      (∀ i, in_word_run sv ev i → i < nw → wrap_ring i sa = (i + 1) % nw) →
      ∃ a', write_batch_is_done_loop ev sa cf fuel a sv so
          = .ok (a', ev, if sv = ev then so else 0) ∧ a'.length = nw ∧
        ∀ w b, (a'.getD w 0).testBit b = true ↔
          ((a.getD w 0).testBit b = true ∨
            (in_word_run sv ev w ∧ w < nw ∧ b < 32 ∧ (w = sv → so ≤ b))) := by
  intro d
  induction d with
  | zero =>
    intro fuel a sv so hlen hsv hd hfuel _
    obtain ⟨f, rfl⟩ : ∃ f, fuel = f + 1 := ⟨fuel - 1, by omega⟩
    have hse : sv = ev := by split_ifs at hd <;> omega
    refine ⟨a, ?_, hlen, ?_⟩
    · rw [write_batch_is_done_loop, if_pos hse, if_pos hse, hse]
    · intro w b
      have : ¬ in_word_run sv ev w := by
        unfold in_word_run
        split_ifs <;> omega
      tauto
  | succ d ih =>
    intro fuel a sv so hlen hsv hd hfuel hwrap
    obtain ⟨f, rfl⟩ : ∃ f, fuel = f + 1 := ⟨fuel - 1, by omega⟩
    have hne : sv ≠ ev := by split_ifs at hd <;> omega
    have hlt : sv < a.length := hlen ▸ hsv
    have hnext := hwrap sv (in_word_run_self sv ev hne) hsv
    obtain ⟨sv', hmod, hsv'⟩ : ∃ sv', (sv + 1) % nw = sv' ∧
        ((sv + 1 = nw ∧ sv' = 0) ∨ (sv + 1 < nw ∧ sv' = sv + 1)) := by
      by_cases h : sv + 1 = nw
      · exact ⟨0, by rw [h, Nat.mod_self], Or.inl ⟨h, rfl⟩⟩
      · exact ⟨sv + 1, Nat.mod_eq_of_lt (by omega), Or.inr ⟨by omega, rfl⟩⟩
    rw [hmod] at hnext
    rw [write_batch_is_done_loop, if_neg hne]
    simp only [or_retry_of_lt _ _ _ _ hlt hcf, hnext]
    obtain ⟨a', hres, hlen', hbits⟩ := ih f
      (a.set sv (a[sv] ||| (UINT_MAX <<< so) % 4294967296)) sv' 0 (by simpa using hlen)
      (by omega) (by split_ifs at hd ⊢ <;> omega) (by omega)
      (by
        intro i hi hinw
        exact hwrap i ((in_word_run_next sv sv' ev nw i hev hinw hne hsv').2 (Or.inr hi))
          hinw)
    refine ⟨a', ?_, hlen', ?_⟩
    · rw [hres, if_neg hne]
      simp
    · intro w b
      rw [hbits w b, getD_set _ _ _ _ hlt]
      by_cases hw : w < nw
      · rw [in_word_run_next sv sv' ev nw w hev hw hne hsv']
        by_cases hws : sv = w
        · subst hws
          have hnot : ¬ in_word_run sv' ev sv := by
            unfold in_word_run
            split_ifs <;> omega
          rw [if_pos rfl, Nat.testBit_lor, Bool.or_eq_true, testBit_high_mask,
            getD_of_lt _ _ hlt]
          constructor
          · rintro (h | h)
            · rcases h with h | h
              · exact Or.inl h
              · exact Or.inr ⟨Or.inl rfl, hw, h.2, fun _ => h.1⟩
            · exact absurd h.1 hnot
          · rintro (h | ⟨_, _, h32, hso⟩)
            · exact Or.inl (Or.inl h)
            · exact Or.inl (Or.inr ⟨hso rfl, h32⟩)
        · rw [if_neg hws]
          have h1 : w ≠ sv := fun h => hws h.symm
          constructor
          · rintro (h | ⟨hr, _, h32, _⟩)
            · exact Or.inl h
            · exact Or.inr ⟨Or.inr hr, hw, h32, fun h => absurd h h1⟩
          · rintro (h | ⟨hr, _, h32, _⟩)
            · exact Or.inl h
            · rcases hr with hr | hr
              · exact absurd hr h1
              · exact Or.inr ⟨hr, hw, h32, fun _ => Nat.zero_le _⟩
      · have e1 : (if sv = w then a[sv] ||| (UINT_MAX <<< so) % 4294967296 else a.getD w 0)
            = a.getD w 0 := by
          rw [if_neg (by omega)]
        rw [e1]
        constructor
        · rintro (h | ⟨_, h, _⟩)
          · exact Or.inl h
          · exact absurd h hw
        · rintro (h | ⟨_, h, _⟩)
          · exact Or.inl h
          · exact absurd h hw

theorem wrap_ring_zero (i : Nat) (hi : i < 65535) : wrap_ring i 0 = i + 1 := by
  have e : (4294967295 : Nat) = 2 ^ 32 - 1 := by norm_num
  unfold wrap_ring pred_as_unsigned
  rw [Nat.zero_add, Nat.mod_eq_of_lt (by omega : 4294967295 < 4294967296),
    Nat.mod_eq_of_lt (by omega : i + 1 < 4294967296), e, Nat.and_pow_two_sub_one_eq_mod]
  omega

/-- The `uint8_t` word count `size_array` of `write_batch64` and
`write_batch_is_done`: exact up to 4096 entries, zero above. -/
theorem size_array_cases (size : Nat) (hsize : RingSize size) (h16 : size < 65536) :
    (size ≤ 4096 ∧ size / 32 % 256 = size / 32) ∨ (4096 < size ∧ size / 32 % 256 = 0) := by
  obtain ⟨⟨n, rfl⟩, _⟩ := hsize
  have hn : n < 16 := lt_of_two_pow_lt n 16 (by omega)
  interval_cases n <;> simp

/-- What `write_batch_is_done` computes when its word cursor stays in the
ring (at most 4096 entries, or no wrap between the two words): it returns, and
bit `b` of word `w` is set afterwards exactly when it was set before or slot
`32 * w + b` is marked. -/
theorem write_batch_is_done_spec (size : Nat) (hsize : RingSize size) (h16 : size < 65536)
    (a : Bitmap) (hlen : a.length = size / 32) (start end_ : Nat) (hs : start < size)
    (he : end_ < size) (fuel : Nat) (hfuel : size / 32 ≤ fuel)
    (hR : size ≤ 4096 ∨ start / 32 ≤ end_ / 32) :
    ∃ a', write_batch_is_done fuel a start end_ size = .ok a' ∧ a'.length = size / 32 ∧
      ∀ w b, (a'.getD w 0).testBit b = true ↔
        ((a.getD w 0).testBit b = true ∨
          (w < size / 32 ∧ b < 32 ∧ marks_slot start end_ (32 * w + b))) := by
  obtain ⟨hpos, hmul, hwrap⟩ := ring_scan_facts size hsize h16
  have hsv : start / 32 < size / 32 := word_index_lt size start hsize.2 hs
  have hev : end_ / 32 < size / 32 := word_index_lt size end_ hsize.2 he
  have hw : ∀ i, in_word_run (start / 32) (end_ / 32) i → i < size / 32 →
      wrap_ring i (size / 32 % 256) = (i + 1) % (size / 32) := by
    intro i hi hin
    rcases size_array_cases size hsize h16 with ⟨_, hsa⟩ | ⟨hbig, hsa⟩
    · rw [hsa]; exact hwrap i hin
    · rw [hsa]
      have hle : start / 32 ≤ end_ / 32 := by omega
      unfold in_word_run at hi
      rw [if_pos hle] at hi
      rw [wrap_ring_zero i (by omega), Nat.mod_eq_of_lt (by omega)]
  obtain ⟨a1, hres, hlen1, hbits1⟩ := write_batch_is_done_loop_spec (size / 32)
    (size / 32 % 256) (end_ / 32) fuel (by omega) hev _ fuel a (start / 32) (start % 32)
    hlen hsv rfl (by split_ifs <;> omega) hw
  have hlt1 : end_ / 32 < a1.length := hlen1 ▸ hev
  have hcall : write_batch_is_done fuel a start end_ size =
      or_retry a1 (end_ / 32)
        (((UINT_MAX <<< (if start / 32 = end_ / 32 then start % 32 else 0)) % 4294967296) &&&
          (UINT_MAX >>> ((32 + 4294967296 - end_ % 32 - 1) % 4294967296))) fuel := by
    simp only [write_batch_is_done, size_ull, hres]
  rw [or_retry_of_lt _ _ _ _ hlt1 (by omega)] at hcall
  refine ⟨_, hcall, by simpa using hlen1, ?_⟩
  · intro w b
    rw [getD_set _ _ _ _ hlt1]
    have hso : start % 32 < 32 := Nat.mod_lt _ (by norm_num)
    have heo : end_ % 32 < 32 := Nat.mod_lt _ (by norm_num)
    by_cases hwe : end_ / 32 = w
    · subst hwe
      rw [if_pos rfl, Nat.testBit_lor, Bool.or_eq_true, Nat.testBit_land, Bool.and_eq_true,
        testBit_high_mask, testBit_low_mask _ _ heo, ← getD_of_lt _ _ hlt1, hbits1]
      unfold in_word_run marks_slot
      constructor
      · rintro ((h | h) | h)
        · exact Or.inl h
        · exact Or.inr ⟨hev, h.2.2.1, by split_ifs at h <;> omega⟩
        · exact Or.inr ⟨hev, h.1.2, by split_ifs at h <;> omega⟩
      · rintro (h | ⟨_, hb, h⟩)
        · exact Or.inl (Or.inl h)
        · by_cases hin : (if start / 32 ≤ end_ / 32 then
              start / 32 ≤ end_ / 32 ∧ end_ / 32 < end_ / 32
              else start / 32 ≤ end_ / 32 ∨ end_ / 32 < end_ / 32)
          · split_ifs at hin <;> omega
          · refine Or.inr ⟨?_, ?_⟩
            · split_ifs <;> omega
            · omega
    · rw [if_neg hwe, hbits1]
      unfold in_word_run marks_slot
      constructor
      · rintro (h | ⟨h1, h2, h3, h4⟩)
        · exact Or.inl h
        · refine Or.inr ⟨h2, h3, ?_⟩
          split_ifs at h1 <;> omega
      · rintro (h | ⟨h2, h3, h4⟩)
        · exact Or.inl h
        · refine Or.inr ⟨?_, h2, h3, ?_⟩
          · split_ifs <;> omega
          · omega

theorem write_batch_is_done_loop_leaves (nw ev cf : Nat) (hnw : nw ≤ 65535) :
    ∀ (n fuel : Nat) (a : Bitmap) (sv so : Nat), a.length = nw → sv + n = nw → ev < sv →
      ∃ f, write_batch_is_done_loop ev 0 cf fuel a sv so = .fault f := by
  intro n
  induction n with
  | zero =>
    intro fuel a sv so hlen hsv hev
    rcases fuel with _ | fuel
    · exact ⟨_, rfl⟩
    · rw [write_batch_is_done_loop, if_neg (by omega)]
      rcases cf with _ | cf
      · exact ⟨_, rfl⟩
      · simp only [or_retry_succ]
        rw [List.getElem?_eq_none (by omega)]
        exact ⟨_, rfl⟩
  | succ n ih =>
    intro fuel a sv so hlen hsv hev
    rcases fuel with _ | fuel
    · exact ⟨_, rfl⟩
    · rw [write_batch_is_done_loop, if_neg (by omega)]
      rcases cf with _ | cf
      · exact ⟨_, rfl⟩
      · simp only [or_retry_of_lt _ _ _ _ (by omega : sv < a.length) (Nat.succ_pos cf),
          wrap_ring_zero sv (by omega)]
        exact ih fuel _ (sv + 1) 0 (by simpa using hlen) (by omega) (by omega)

/-- Above 4096 entries, a call of `write_batch_is_done` whose end word lies
before its start word never returns normally: the word cursor walks past the
last word of the array. -/
theorem write_batch_is_done_leaves (size : Nat) (hsize : RingSize size) (h16 : size < 65536)
    (a : Bitmap) (hlen : a.length = size / 32) (start end_ : Nat) (hs : start < size)
    (hbig : 4096 < size) (hwrap : end_ / 32 < start / 32) (fuel : Nat) :
    ∃ f, write_batch_is_done fuel a start end_ size = .fault f := by
  have hsv : start / 32 < size / 32 := word_index_lt size start hsize.2 hs
  have hsa : size / 32 % 256 = 0 := by
    rcases size_array_cases size hsize h16 with ⟨h, _⟩ | ⟨_, h⟩
    · omega
    · exact h
  obtain ⟨f, hf⟩ := write_batch_is_done_loop_leaves (size / 32) (end_ / 32) fuel (by omega)
    (size / 32 - start / 32) fuel a (start / 32) (start % 32) hlen (by omega) hwrap
  refine ⟨f, ?_⟩
  simp only [write_batch_is_done, size_ull, hsa, hf]

theorem read_bit_getD (a : Bitmap) (j : Nat) (h : j / 32 < a.length) :
    read_bit a j = .ok ((a.getD (j / 32) 0).testBit (j % 32)) := by
  rw [read_bit_of_lt _ _ h, getD_of_lt _ _ h]

theorem marks_slot_in_ring_range (start end_ j : Nat) (h : marks_slot start end_ j) :
    in_ring_range start end_ j := by
  unfold marks_slot at h
  unfold in_ring_range
  split_ifs <;> omega

theorem in_ring_range_marks_slot (start end_ j : Nat) (h : in_ring_range start end_ j)
    (hnot : ¬ (start / 32 = end_ / 32 ∧ end_ < start)) : marks_slot start end_ j := by
  unfold in_ring_range at h
  unfold marks_slot
  split_ifs at h <;> omega

/-- Slot view of `write_batch_is_done_spec`. -/
theorem write_batch_is_done_slots (size : Nat) (hsize : RingSize size) (h16 : size < 65536)
    (a : Bitmap) (hlen : a.length = size / 32) (start end_ : Nat) (hs : start < size)
    (he : end_ < size) (fuel : Nat) (hfuel : size / 32 ≤ fuel)
    (hR : size ≤ 4096 ∨ start / 32 ≤ end_ / 32) :
    ∃ a', write_batch_is_done fuel a start end_ size = .ok a' ∧
      (∀ j, j < size → marks_slot start end_ j → read_bit a' j = .ok true) ∧
      (∀ j, j < size → ¬ marks_slot start end_ j → read_bit a' j = read_bit a j) := by
  obtain ⟨a', hres, hlen', hbits⟩ :=
    write_batch_is_done_spec size hsize h16 a hlen start end_ hs he fuel hfuel hR
  refine ⟨a', hres, ?_, ?_⟩
  · intro j hj hm
    have hjw : j / 32 < size / 32 := word_index_lt size j hsize.2 hj
    rw [read_bit_getD _ _ (hlen' ▸ hjw)]
    congr 1
    rw [hbits]
    refine Or.inr ⟨hjw, Nat.mod_lt _ (by norm_num), ?_⟩
    rwa [Nat.div_add_mod]
  · intro j hj hm
    have hjw : j / 32 < size / 32 := word_index_lt size j hsize.2 hj
    rw [read_bit_getD _ _ (hlen' ▸ hjw), read_bit_getD _ _ (hlen ▸ hjw)]
    congr 1
    rw [Bool.eq_iff_iff, hbits]
    constructor
    · rintro (h | ⟨_, _, h⟩)
      · exact h
      · rw [Nat.div_add_mod] at h
        exact absurd h hm
    · exact fun h => Or.inl h

/-- Where the word cursor stays in the ring and the range is not one that
wraps inside a single word, `write_batch_is_done` returns and every slot of
the inclusive ring range reads true. -/
theorem write_batch_is_done_marks_range (size : Nat) (hsize : RingSize size)
    (h16 : size < 65536) (a : Bitmap) (hlen : a.length = size / 32) (start end_ : Nat)
    (hs : start < size) (he : end_ < size) (fuel : Nat) (hfuel : size / 32 ≤ fuel)
    (hR : size ≤ 4096 ∨ start / 32 ≤ end_ / 32)
    (hnot : ¬ (start / 32 = end_ / 32 ∧ end_ < start)) :
    ∃ a', write_batch_is_done fuel a start end_ size = .ok a' ∧
      ∀ j, j < size → in_ring_range start end_ j → read_bit a' j = .ok true := by
  obtain ⟨a', hres, hset, _⟩ :=
    write_batch_is_done_slots size hsize h16 a hlen start end_ hs he fuel hfuel hR
  exact ⟨a', hres, fun j hj hr => hset j hj (in_ring_range_marks_slot start end_ j hr hnot)⟩

set_option maxRecDepth 20000 in
/-- C2 (failing inputs): on the all-zero ring of 128 slots the call
`write_batch_is_done(array, 5, 3, 128)`, whose ring range 5, 6, ..., 127, 0,
..., 3 starts and ends in word 0, returns the bitmap unchanged for every
positive fuel, so slot 5 of the range still reads false; and on a ring of
8192 slots the call `write_batch_is_done(array, 8191, 0, 8192)` leaves the
array after word 255 instead of wrapping to word 0, for every fuel of at
least 2. -/
theorem write_batch_is_done_misses_wrapped_ranges :
    (in_ring_range 5 3 5 ∧
      (∀ f : Nat, write_batch_is_done (f + 1) [0, 0, 0, 0] 5 3 128 = .ok [0, 0, 0, 0]) ∧
      read_bit [0, 0, 0, 0] 5 = .ok false) ∧
    (in_ring_range 8191 0 8191 ∧
      ∀ f : Nat, write_batch_is_done (f + 2) (List.replicate 256 0) 8191 0 8192
        = .fault .out_of_bounds) := by
  refine ⟨⟨by decide, fun f => rfl, by decide⟩, by decide, fun f => rfl⟩

/-- C3: on a valid ring, with fuel for one pass over the words: if
`write_batch_is_done` returns, `read_bit` is unchanged for every slot outside
the inclusive ring range from `start` to `end_`; it does return when the ring
has at most 4096 entries or the end word is not before the start word; and
for `start = end_` it returns and every slot other than `start` is unchanged. -/
theorem write_batch_is_done_frame (size : Nat) (hsize : RingSize size) (h16 : size < 65536)
    (array : Bitmap) (hlen : array.length = size / 32) (start end_ : Nat)
    (hs : start < size) (he : end_ < size) (fuel : Nat) (hfuel : size / 32 ≤ fuel) :
    (∀ array', write_batch_is_done fuel array start end_ size = .ok array' →
      ∀ j, j < size → ¬ in_ring_range start end_ j → read_bit array' j = read_bit array j) ∧
    ((size ≤ 4096 ∨ start / 32 ≤ end_ / 32) →
      ∃ array', write_batch_is_done fuel array start end_ size = .ok array') ∧
    (start = end_ →
      ∃ array', write_batch_is_done fuel array start end_ size = .ok array' ∧
        ∀ j, j < size → j ≠ start → read_bit array' j = read_bit array j) := by
  have hframe : (size ≤ 4096 ∨ start / 32 ≤ end_ / 32) →
      ∃ array', write_batch_is_done fuel array start end_ size = .ok array' ∧
        ∀ j, j < size → ¬ in_ring_range start end_ j →
          read_bit array' j = read_bit array j := by
    intro hR
    obtain ⟨a', hres, _, hkeep⟩ :=
      write_batch_is_done_slots size hsize h16 array hlen start end_ hs he fuel hfuel hR
    exact ⟨a', hres, fun j hj hr =>
      hkeep j hj (fun hm => hr (marks_slot_in_ring_range start end_ j hm))⟩
  refine ⟨?_, ?_, ?_⟩
  · intro array' h j hj hr
    by_cases hR : size ≤ 4096 ∨ start / 32 ≤ end_ / 32
    · obtain ⟨a', hres, hkeep⟩ := hframe hR
      rw [hres] at h
      have : a' = array' := by injection h
      subst this
      exact hkeep j hj hr
    · obtain ⟨f, hf⟩ := write_batch_is_done_leaves size hsize h16 array hlen start end_ hs
        (by omega) (by omega) fuel
      rw [hf] at h
      exact absurd h (by simp)
  · intro hR
    obtain ⟨a', hres, _⟩ := hframe hR
    exact ⟨a', hres⟩
  · intro hse
    obtain ⟨a', hres, hkeep⟩ := hframe (Or.inr (by omega))
    refine ⟨a', hres, fun j hj hne => hkeep j hj ?_⟩
    unfold in_ring_range
    split_ifs <;> omega

theorem write_batch_is_done_frame_witness :
    (∀ array', write_batch_is_done 4 [1, 0, 6, 0] 100 40 128 = .ok array' →
      ∀ j, j < 128 → ¬ in_ring_range 100 40 j → read_bit array' j = read_bit [1, 0, 6, 0] j) ∧
    ((128 ≤ 4096 ∨ 100 / 32 ≤ 40 / 32) →
      ∃ array', write_batch_is_done 4 [1, 0, 6, 0] 100 40 128 = .ok array') ∧
    (100 = 40 →
      ∃ array', write_batch_is_done 4 [1, 0, 6, 0] 100 40 128 = .ok array' ∧
        ∀ j, j < 128 → j ≠ 100 → read_bit array' j = read_bit [1, 0, 6, 0] j) :=
  write_batch_is_done_frame 128 ⟨⟨7, by decide⟩, by decide⟩ (by decide) [1, 0, 6, 0]
    (by decide) 100 40 (by decide) (by decide) 4 (by decide)

/-! ## The packed cursor -/

theorem eight_bytes (mem : List Nat) (h : mem.length = 8) :
    ∃ b0 b1 b2 b3 b4 b5 b6 b7, mem = [b0, b1, b2, b3, b4, b5, b6, b7] := by
  match mem, h with
  | [b0, b1, b2, b3, b4, b5, b6, b7], _ => exact ⟨b0, b1, b2, b3, b4, b5, b6, b7, rfl⟩

/-- C11: whatever the 8 bytes of the cursor hold, after `write_tail_w(var, t)`
and `write_min_counter(var, c)` in either order `read_variable(var)` is
`t * 2 ^ 32 + c` for all 32-bit `t` and `c`; in particular `7 * 2 ^ 32 + 3`
for `t = 7` and `c = 3`. -/
theorem packed_cursor_stores_then_load (var : List Nat) (hlen : var.length = 8)
    (t c : Nat) (ht : t < 4294967296) (hc : c < 4294967296) :
    read_variable (write_min_counter (write_tail_w var t) c) = t * 4294967296 + c ∧
    read_variable (write_tail_w (write_min_counter var c) t) = t * 4294967296 + c ∧
    read_variable (write_min_counter (write_tail_w var 7) 3) = 7 * 4294967296 + 3 ∧
    read_variable (write_tail_w (write_min_counter var 3) 7) = 7 * 4294967296 + 3 := by
  obtain ⟨b0, b1, b2, b3, b4, b5, b6, b7, rfl⟩ := eight_bytes var hlen
  refine ⟨?_, ?_, ?_, ?_⟩ <;>
    simp only [read_variable, write_min_counter, write_tail_w, store_at, load_at, encode_le,
      load_le, List.take, List.drop, List.append, List.cons_append, List.nil_append] <;>
    omega

theorem packed_cursor_stores_then_load_witness :
    read_variable (write_min_counter (write_tail_w [1, 2, 3, 4, 5, 6, 7, 8] 9) 4294967295)
      = 9 * 4294967296 + 4294967295 ∧
    read_variable (write_tail_w (write_min_counter [1, 2, 3, 4, 5, 6, 7, 8] 4294967295) 9)
      = 9 * 4294967296 + 4294967295 ∧
    read_variable (write_min_counter (write_tail_w [1, 2, 3, 4, 5, 6, 7, 8] 7) 3)
      = 7 * 4294967296 + 3 ∧
    read_variable (write_tail_w (write_min_counter [1, 2, 3, 4, 5, 6, 7, 8] 3) 7)
      = 7 * 4294967296 + 3 :=
  packed_cursor_stores_then_load [1, 2, 3, 4, 5, 6, 7, 8] (by decide) 9 4294967295
    (by decide) (by decide)

/-- C12: a store to one 32-bit half of the cursor leaves the other half as it
was: `write_min_counter` keeps bytes 4..7 and hence `read_tail_w`, also as
seen through the full-word load (`read_tail_w_nonatomic`); `write_tail_w`
keeps bytes 0..3 and hence `read_min_counter`, also as seen through
`read_min_counter_nonatomic`. -/
theorem packed_cursor_halves_independent (var : List Nat) (hlen : var.length = 8)
    (hbytes : ∀ b ∈ var, b < 256) (v : Nat) :
    read_tail_w (write_min_counter var v) = read_tail_w var ∧
    read_min_counter (write_tail_w var v) = read_min_counter var ∧
    (write_min_counter var v).drop 4 = var.drop 4 ∧
    (write_tail_w var v).take 4 = var.take 4 ∧
    read_tail_w_nonatomic (write_min_counter var v) = read_tail_w_nonatomic var ∧
    read_min_counter_nonatomic (write_tail_w var v) = read_min_counter_nonatomic var := by
  obtain ⟨b0, b1, b2, b3, b4, b5, b6, b7, rfl⟩ := eight_bytes var hlen
  have h0 := hbytes b0 (by simp)
  have h1 := hbytes b1 (by simp)
  have h2 := hbytes b2 (by simp)
  have h3 := hbytes b3 (by simp)
  have h4 := hbytes b4 (by simp)
  have h5 := hbytes b5 (by simp)
  have h6 := hbytes b6 (by simp)
  have h7 := hbytes b7 (by simp)
  refine ⟨rfl, rfl, rfl, rfl, ?_, ?_⟩ <;>
    simp only [read_tail_w_nonatomic, read_min_counter_nonatomic, write_min_counter,
      write_tail_w, store_at, load_at, encode_le, load_le, List.take, List.drop, List.append,
      List.cons_append, List.nil_append, Nat.shiftRight_eq_div_pow] <;>
    omega

theorem packed_cursor_halves_independent_witness :
    read_tail_w (write_min_counter [1, 2, 3, 4, 5, 6, 7, 8] 77) =
      read_tail_w [1, 2, 3, 4, 5, 6, 7, 8] ∧
    read_min_counter (write_tail_w [1, 2, 3, 4, 5, 6, 7, 8] 77) =
      read_min_counter [1, 2, 3, 4, 5, 6, 7, 8] ∧
    (write_min_counter [1, 2, 3, 4, 5, 6, 7, 8] 77).drop 4 = [1, 2, 3, 4, 5, 6, 7, 8].drop 4 ∧
    (write_tail_w [1, 2, 3, 4, 5, 6, 7, 8] 77).take 4 = [1, 2, 3, 4, 5, 6, 7, 8].take 4 ∧
    read_tail_w_nonatomic (write_min_counter [1, 2, 3, 4, 5, 6, 7, 8] 77) =
      read_tail_w_nonatomic [1, 2, 3, 4, 5, 6, 7, 8] ∧
    read_min_counter_nonatomic (write_tail_w [1, 2, 3, 4, 5, 6, 7, 8] 77) =
      read_min_counter_nonatomic [1, 2, 3, 4, 5, 6, 7, 8] :=
  packed_cursor_halves_independent [1, 2, 3, 4, 5, 6, 7, 8] (by decide) (by decide) 77

/-- C15: when the cursor holds the 64-bit value `v` (stored little-endian),
the atomic and the plain accessors agree and decode the layout:
`read_tail_w = read_tail_w_nonatomic = v >> 32`,
`read_min_counter = read_min_counter_nonatomic = v mod 2 ^ 32`, and
`read_variable = v`. -/
theorem packed_cursor_layout (v : Nat) (hv : v < 18446744073709551616) :
    read_tail_w (encode_le 8 v) = read_tail_w_nonatomic (encode_le 8 v) ∧
    read_tail_w (encode_le 8 v) = v >>> 32 ∧
    read_min_counter (encode_le 8 v) = read_min_counter_nonatomic (encode_le 8 v) ∧
    read_min_counter (encode_le 8 v) = v % 4294967296 ∧
    read_variable (encode_le 8 v) = v := by
  refine ⟨?_, ?_, ?_, ?_, ?_⟩ <;>
    simp only [read_tail_w, read_tail_w_nonatomic, read_min_counter,
      read_min_counter_nonatomic, read_variable, load_at, encode_le, load_le, List.take,
      List.drop, Nat.shiftRight_eq_div_pow] <;>
    omega

theorem packed_cursor_layout_witness :
    read_tail_w (encode_le 8 81985529216486895) =
      read_tail_w_nonatomic (encode_le 8 81985529216486895) ∧
    read_tail_w (encode_le 8 81985529216486895) = 81985529216486895 >>> 32 ∧
    read_min_counter (encode_le 8 81985529216486895) =
      read_min_counter_nonatomic (encode_le 8 81985529216486895) ∧
    read_min_counter (encode_le 8 81985529216486895) = 81985529216486895 % 4294967296 ∧
    read_variable (encode_le 8 81985529216486895) = 81985529216486895 :=
  packed_cursor_layout 81985529216486895 (by decide)

/-! ## The scan `read_most_significant_bit` -/

theorem leading_zeros_eq_zero_iff (x n : Nat) :
    leading_zeros x (n + 1) = 0 ↔ x.testBit n = true := by
  rw [leading_zeros]
  by_cases h : x.testBit n = true
  · simp [h]
  · simp [h]

theorem leading_zeros_le (x : Nat) : ∀ n, leading_zeros x n ≤ n := by
  intro n
  induction n with
  | zero => simp [leading_zeros]
  | succ n ih =>
    rw [leading_zeros]
    split_ifs <;> omega

/-- When `x` has a set bit below `n`, `n - 1 - leading_zeros x n` is the
position of its highest set bit below `n`. -/
theorem leading_zeros_spec (x : Nat) :
    ∀ n, (∃ j, j < n ∧ x.testBit j = true) →
      leading_zeros x n < n ∧ x.testBit (n - 1 - leading_zeros x n) = true ∧
        ∀ j, n - 1 - leading_zeros x n < j → j < n → x.testBit j = false := by
  intro n
  induction n with
  | zero =>
    rintro ⟨j, hj, _⟩
    omega
  | succ n ih =>
    rintro ⟨j, hj, hbit⟩
    rw [leading_zeros]
    by_cases h : x.testBit n = true
    · rw [if_pos h]
      refine ⟨by omega, by simpa using h, fun i h1 h2 => by omega⟩
    · rw [if_neg h]
      have hjn : j < n := by
        rcases Nat.lt_or_ge j n with h1 | h1
        · exact h1
        · have : j = n := by omega
          subst this
          exact absurd hbit h
      obtain ⟨h1, h2, h3⟩ := ih ⟨j, hjn, hbit⟩
      refine ⟨by omega, ?_, ?_⟩
      · have : n + 1 - 1 - (leading_zeros x n + 1) = n - 1 - leading_zeros x n := by omega
        rw [this]
        exact h2
      · intro i hi1 hi2
        by_cases hin : i = n
        · subst hin
          simpa using h
        · exact h3 i (by omega) (by omega)

theorem exists_testBit_of_ne_zero (x : Nat) (hx : x ≠ 0) (h64 : x < 18446744073709551616) :
    ∃ j, j < 64 ∧ x.testBit j = true := by
  obtain ⟨j, hj⟩ := Nat.ne_zero_implies_bit_true hx
  refine ⟨j, ?_, hj⟩
  by_contra hc
  have h1 : x < 2 ^ j :=
    lt_of_lt_of_le h64 (by
      have : (2 : Nat) ^ 64 ≤ 2 ^ j := Nat.pow_le_pow_right (by norm_num) (by omega)
      simpa using this)
  rw [Nat.testBit_lt_two_pow h1] at hj
  exact absurd hj (by simp)

theorem ne_zero_of_testBit (x j : Nat) (h : x.testBit j = true) : x ≠ 0 := by
  rintro rfl
  simp at h

theorem load_ull_of_lt (array : List Nat) (i : Nat) (h : i < array.length) :
    load_ull array i = .ok array[i] := by
  simp [load_ull, List.getElem?_eq_getElem h]

theorem builtin_clzll_of_ne_zero (x : Nat) (hx : x ≠ 0) :
    builtin_clzll x = .ok (leading_zeros x 64) := by
  simp [builtin_clzll, hx]

/-- The facts about a ring of 64-bit words that the scan uses. -/
theorem ring_scan_facts64 (size : Nat) (hpow : ∃ n, size = 2 ^ n) (h64 : 64 ∣ size)
    (h16 : size < 65536) :
    0 < size / 64 ∧ 64 * (size / 64) = size ∧
      ∀ i, i < size / 64 → wrap_ring i (size / 64) = (i + 1) % (size / 64) := by
  obtain ⟨n, rfl⟩ := hpow
  have h6 : 6 ≤ n := by
    have : (2 : Nat) ^ 6 ∣ 2 ^ n := by simpa using h64
    exact (Nat.pow_dvd_pow_iff_le_right (by norm_num)).1 this
  have hdiv : (2 : Nat) ^ n / 64 = 2 ^ (n - 6) := by
    have : (2 : Nat) ^ n / 2 ^ 6 = 2 ^ (n - 6) := Nat.pow_div h6 (by norm_num)
    simpa using this
  have hmul : 64 * 2 ^ (n - 6) = 2 ^ n := by
    have : (2 : Nat) ^ 6 * 2 ^ (n - 6) = 2 ^ n := by
      rw [← Nat.pow_add]; congr 1; omega
    simpa using this
  have hpos : 0 < 2 ^ (n - 6) := Nat.pos_pow_of_pos _ (by norm_num)
  have hn : n < 16 := lt_of_two_pow_lt n 16 (by omega)
  rw [hdiv]
  refine ⟨hpos, hmul, fun i hi => wrap_ring_two_pow i (n - 6) (by omega) (by omega)⟩

/-- The loop of `read_most_significant_bit` never ends when every word has
its top bit set. -/
theorem read_most_significant_bit_loop_spins (array : List Nat) (size nw : Nat)
    (hnw : size / 64 = nw) (hwrap : ∀ i, i < nw → wrap_ring i nw = (i + 1) % nw)
    (hlen : array.length = nw) (htop : ∀ w ∈ array, w.testBit 63 = true) :
    ∀ (fuel start_var : Nat), start_var < nw →
      read_most_significant_bit_loop array size fuel start_var 0 = .fault .out_of_fuel := by
  intro fuel
  induction fuel with
  | zero => intro sv _; rfl
  | succ f ih =>
    intro sv hsv
    have hpos : 0 < nw := by omega
    have hlt : (sv + 1) % nw < array.length := by rw [hlen]; exact Nat.mod_lt _ hpos
    have hw := htop _ (List.getElem_mem hlt)
    rw [read_most_significant_bit_loop, if_pos rfl]
    simp only [size_ull64, hnw, hwrap sv hsv, load_ull_of_lt _ _ hlt,
      builtin_clzll_of_ne_zero _ (ne_zero_of_testBit _ _ hw),
      (leading_zeros_eq_zero_iff _ 63).2 hw]
    exact ih _ (Nat.mod_lt _ hpos)

/-- The loop of `read_most_significant_bit` entered at word `start_var` with
the count of that word: after `k` words with the top bit set it stops at the
first word whose top bit is clear, when that word is not zero. -/
theorem read_most_significant_bit_loop_run (array : List Nat) (size nw : Nat)
    (hnw : size / 64 = nw) (hwrap : ∀ i, i < nw → wrap_ring i nw = (i + 1) % nw)
    (hlen : array.length = nw) :
    ∀ (k fuel start_var : Nat), start_var < nw → k < fuel →
      (∀ j, j < k → (array.getD ((start_var + j) % nw) 0).testBit 63 = true) →
      (array.getD ((start_var + k) % nw) 0).testBit 63 = false →
      array.getD ((start_var + k) % nw) 0 ≠ 0 →
      read_most_significant_bit_loop array size fuel start_var
          (leading_zeros (array.getD start_var 0) 64) =
        .ok ((start_var + k) % nw,
          leading_zeros (array.getD ((start_var + k) % nw) 0) 64) := by
  intro k
  induction k with
  | zero =>
    intro fuel sv hsv hfuel _ hclear _
    obtain ⟨f, rfl⟩ : ∃ f, fuel = f + 1 := ⟨fuel - 1, by omega⟩
    simp only [Nat.add_zero, Nat.mod_eq_of_lt hsv] at hclear ⊢
    have : leading_zeros (array.getD sv 0) 64 ≠ 0 := by
      intro h
      rw [(leading_zeros_eq_zero_iff _ 63).1 h] at hclear
      exact absurd hclear (by simp)
    rw [read_most_significant_bit_loop, if_neg this]
  | succ k ih =>
    intro fuel sv hsv hfuel htop hclear hne
    obtain ⟨f, rfl⟩ : ∃ f, fuel = f + 1 := ⟨fuel - 1, by omega⟩
    have hpos : 0 < nw := by omega
    have h0 := htop 0 (by omega)
    rw [Nat.add_zero, Nat.mod_eq_of_lt hsv] at h0
    have hlt : (sv + 1) % nw < array.length := by rw [hlen]; exact Nat.mod_lt _ hpos
    have hnext : array[(sv + 1) % nw] ≠ 0 := by
      rw [← getD_of_lt _ _ hlt]
      rcases k with _ | k
      · simpa using hne
      · have := htop 1 (by omega)
        exact ne_zero_of_testBit _ _ this
    rw [read_most_significant_bit_loop, if_pos ((leading_zeros_eq_zero_iff _ 63).2 h0)]
    simp only [size_ull64, hnw, hwrap sv hsv, load_ull_of_lt _ _ hlt,
      builtin_clzll_of_ne_zero _ hnext]
    rw [← getD_of_lt _ _ hlt]
    have := ih f ((sv + 1) % nw) (Nat.mod_lt _ hpos) (by omega)
      (fun j hj => by rw [mod_succ_add]; exact htop (j + 1) (by omega))
      (by rw [mod_succ_add]; exact hclear) (by rw [mod_succ_add]; exact hne)
    rw [this, mod_succ_add]

/-- What `read_most_significant_bit` returns on a ring of 64-bit words: when
the first word from word `start / 64` on whose top bit is clear is `k` words
ahead and is not zero, the result is `63 - clz` if that word is word 0 and
`64 * index - clz` for a word `index` other than 0, `clz` being the number of
leading zeros of the word. -/
theorem read_most_significant_bit_value (size : Nat) (hpow : ∃ n, size = 2 ^ n)
    (h64 : 64 ∣ size) (h16 : size < 65536) (array : List Nat)
    (hlen : array.length = size / 64) (hwords : ∀ w ∈ array, w < 18446744073709551616)
    (start : Nat) (hstart : start < size)
    (k fuel : Nat) (hfuel : k < fuel)
    (htop : ∀ j, j < k → (array.getD ((start / 64 + j) % (size / 64)) 0).testBit 63 = true)
    (hclear : (array.getD ((start / 64 + k) % (size / 64)) 0).testBit 63 = false)
    (hne : array.getD ((start / 64 + k) % (size / 64)) 0 ≠ 0) :
    read_most_significant_bit fuel array start size =
      .ok (if (start / 64 + k) % (size / 64) = 0 then
          63 - leading_zeros (array.getD ((start / 64 + k) % (size / 64)) 0) 64
        else 64 * ((start / 64 + k) % (size / 64)) -
          leading_zeros (array.getD ((start / 64 + k) % (size / 64)) 0) 64) := by
  obtain ⟨hpos, hmul, hwrap⟩ := ring_scan_facts64 size hpow h64 h16
  have hsv : start / 64 < size / 64 := by
    obtain ⟨c, rfl⟩ := h64
    omega
  have hlt : start / 64 < array.length := hlen ▸ hsv
  have h0 : array[start / 64] ≠ 0 := by
    rw [← getD_of_lt _ _ hlt]
    rcases k with _ | k
    · simpa [Nat.mod_eq_of_lt hsv] using hne
    · have := htop 0 (by omega)
      rw [Nat.add_zero, Nat.mod_eq_of_lt hsv] at this
      exact ne_zero_of_testBit _ _ this
  have hrun := read_most_significant_bit_loop_run array size (size / 64) rfl hwrap hlen k fuel
    (start / 64) hsv hfuel htop hclear hne
  have hidx : (start / 64 + k) % (size / 64) < size / 64 := Nat.mod_lt _ hpos
  have hle : leading_zeros (array.getD ((start / 64 + k) % (size / 64)) 0) 64 < 64 := by
    refine (leading_zeros_spec _ 64 (exists_testBit_of_ne_zero _ hne ?_)).1
    rw [getD_of_lt _ _ (hlen ▸ hidx)]
    exact hwords _ (List.getElem_mem _)
  have hge : leading_zeros (array.getD ((start / 64 + k) % (size / 64)) 0) 64 ≠ 0 := by
    intro h
    rw [(leading_zeros_eq_zero_iff _ 63).1 h] at hclear
    exact absurd hclear (by simp)
  simp only [read_most_significant_bit, size_ull64, load_ull_of_lt _ _ hlt,
    builtin_clzll_of_ne_zero _ h0]
  rw [← getD_of_lt _ _ hlt, hrun]
  simp only []
  have hnw : size / 64 ≤ 1023 := by omega
  generalize leading_zeros (array.getD ((start / 64 + k) % (size / 64)) 0) 64 = lz at hle hge ⊢
  generalize (start / 64 + k) % (size / 64) = idx at hidx ⊢
  split_ifs
  · congr 1
    omega
  · congr 1
    omega

/-- C13 (counterexample): on the all-done bitmap of ring size 64, one 64-bit
word with every bit set, `read_most_significant_bit(array, 0, 64)` returns 63
for no fuel. -/
theorem read_most_significant_bit_all_done_no_result :
    ¬ ∃ fuel, read_most_significant_bit fuel [18446744073709551615] 0 64 = .ok 63 := by
  rintro ⟨fuel, h⟩
  have hspin := read_most_significant_bit_loop_spins [18446744073709551615] 64 1 (by decide)
    (by decide) rfl (by decide) fuel 0 (by decide)
  have h1 : read_most_significant_bit fuel [18446744073709551615] 0 64 =
      .fault .out_of_fuel := by
    simp only [read_most_significant_bit, size_ull64]
    have e1 : load_ull [18446744073709551615] (0 / 64) = .ok 18446744073709551615 := by decide
    have e2 : builtin_clzll 18446744073709551615 = .ok 0 := by decide
    rw [e1]
    simp only [e2, hspin]
  rw [h1] at h
  exact absurd h (by simp)

/-- C13 (amended): on a bitmap of ring size 64, one 64-bit word `w`:
when slot 63 is done, in particular when every slot is done,
`read_most_significant_bit` does not return, whatever the fuel; when slot 63
is not done and some slot is, it returns the index of the highest done slot. -/
theorem read_most_significant_bit_one_word (w : Nat) (hw : w < 18446744073709551616)
    (start : Nat) (hstart : start < 64) :
    (w.testBit 63 = true →
      ∀ fuel, read_most_significant_bit fuel [w] start 64 = .fault .out_of_fuel) ∧
    (w.testBit 63 = false → w ≠ 0 → ∀ fuel, 0 < fuel →
      ∃ idx, read_most_significant_bit fuel [w] start 64 = .ok idx ∧ idx < 63 ∧
        w.testBit idx = true ∧ ∀ j, idx < j → j < 64 → w.testBit j = false) := by
  have hs : start / 64 = 0 := by omega
  constructor
  · intro htop fuel
    have hspin := read_most_significant_bit_loop_spins [w] 64 1 (by decide) (by decide) rfl
      (by simpa using htop) fuel 0 (by decide)
    simp only [read_most_significant_bit, size_ull64, hs]
    have e1 : load_ull [w] 0 = .ok w := rfl
    rw [e1]
    simp only [builtin_clzll_of_ne_zero _ (ne_zero_of_testBit _ _ htop),
      (leading_zeros_eq_zero_iff _ 63).2 htop, hspin]
  · intro hclear hne fuel hfuel
    have hval := read_most_significant_bit_value 64 ⟨6, by decide⟩ (by decide) (by decide) [w]
      rfl (by simpa using hw) start hstart 0 fuel hfuel (fun j hj => absurd hj (by omega))
      (by simpa [hs] using hclear) (by simpa [hs] using hne)
    have hidx : (start / 64 + 0) % (64 / 64) = 0 := by omega
    rw [hidx, if_pos rfl] at hval
    have hw0 : ([w] : List Nat).getD 0 0 = w := rfl
    rw [hw0] at hval
    obtain ⟨h1, h2, h3⟩ := leading_zeros_spec w 64 (exists_testBit_of_ne_zero w hne hw)
    have hge : leading_zeros w 64 ≠ 0 := by
      intro h
      rw [(leading_zeros_eq_zero_iff _ 63).1 h] at hclear
      exact absurd hclear (by simp)
    refine ⟨_, hval, by omega, ?_, ?_⟩
    · simpa using h2
    · intro j hj1 hj2
      exact h3 j (by omega) hj2

theorem read_most_significant_bit_one_word_witness :
    ((18446744073709551615 : Nat).testBit 63 = true →
      ∀ fuel, read_most_significant_bit fuel [18446744073709551615] 0 64
        = .fault .out_of_fuel) ∧
    ((18446744073709551615 : Nat).testBit 63 = false → 18446744073709551615 ≠ 0 →
      ∀ fuel, 0 < fuel →
      ∃ idx, read_most_significant_bit fuel [18446744073709551615] 0 64 = .ok idx ∧
        idx < 63 ∧ (18446744073709551615 : Nat).testBit idx = true ∧
        ∀ j, idx < j → j < 64 → (18446744073709551615 : Nat).testBit j = false) :=
  read_most_significant_bit_one_word 18446744073709551615 (by decide) 0 (by decide)

/-- C14 (failing input): ring size 128, two 64-bit words `2 ^ 64 - 1` and `5`.
From `start = 0` the first word whose top bit is clear is word 1, it is not
zero and its highest set bit is bit 2, slot `1 * 64 + (63 - 61) = 66`; the
call returns `1 * 64 - 61 = 3` for every fuel of at least 2, and so does the
call from `start = 64` on the words `0` and `5` for every positive fuel. -/
theorem read_most_significant_bit_second_word_index :
    (18446744073709551615 : Nat).testBit 63 = true ∧
    (5 : Nat).testBit 63 = false ∧
    leading_zeros 5 64 = 61 ∧
    1 * 64 + (63 - leading_zeros 5 64) = 66 ∧
    (∀ f : Nat, read_most_significant_bit (f + 2) [18446744073709551615, 5] 0 128 = .ok 3) ∧
    (∀ f : Nat, read_most_significant_bit (f + 1) [0, 5] 64 128 = .ok 3) := by
  refine ⟨by decide, by decide, by decide, by decide, fun f => rfl, fun f => rfl⟩

/-! ## The queries do not write -/

theorem atomic_load_mem_eq (array : Bitmap) (i : Nat) :
    atomic_load_mem array i =
      match atomic_load array i with
      | .ok v => .ok (v, array)
      | .fault f => .fault f := by
  unfold atomic_load_mem atomic_load
  cases array[i]? <;> rfl

theorem read_bit_mem_eq (array : Bitmap) (index : Nat) :
    read_bit_mem array index =
      match read_bit array index with
      | .ok b => .ok (b, array)
      | .fault f => .fault f := by
  simp only [read_bit_mem, read_bit, atomic_load_mem_eq]
  cases atomic_load array (index / size_ull) <;> rfl

theorem read_batch64_mem_loop_eq (size : Nat) (array : Bitmap) :
    ∀ (fuel start_var processed : Nat),
      read_batch64_mem_loop size fuel array start_var processed =
        match read_batch64_loop array size fuel start_var processed with
        | .ok count => .ok (count, array)
        | .fault f => .fault f := by
  intro fuel
  induction fuel with
  | zero => intro sv p; rfl
  | succ f ih =>
    intro sv p
    rw [read_batch64_mem_loop, read_batch64_loop, atomic_load_mem_eq]
    cases atomic_load array sv with
    | fault e => rfl
    | ok v =>
      simp only
      split_ifs
      · exact ih _ _
      · rfl

theorem read_end_batch64_mem_loop_eq (size : Nat) (array : Bitmap) :
    ∀ (fuel start_var : Nat),
      read_end_batch64_mem_loop size fuel array start_var =
        match read_end_batch64_loop array size fuel start_var with
        | .ok slot => .ok (slot, array)
        | .fault f => .fault f := by
  intro fuel
  induction fuel with
  | zero => intro sv; rfl
  | succ f ih =>
    intro sv
    rw [read_end_batch64_mem_loop, read_end_batch64_loop, atomic_load_mem_eq]
    cases atomic_load array sv with
    | fault e => rfl
    | ok v =>
      simp only
      split_ifs
      · exact ih _
      · rfl

/-- C16: the queries are pure.  For any array, arguments and fuel, `read_bit`,
`read_batch64` and `read_end_batch64` return exactly when the function without
the memory threaded through returns, with the same value, and the array after
the call is the array before it, word for word. -/
theorem queries_leave_array_unchanged (array : Bitmap) (index start size fuel : Nat) :
    (∀ b array', read_bit_mem array index = .ok (b, array') ↔
      (array' = array ∧ read_bit array index = .ok b)) ∧
    (∀ count array', read_batch64_mem fuel array start size = .ok (count, array') ↔
      (array' = array ∧ read_batch64 fuel array start size = .ok count)) ∧
    (∀ slot array', read_end_batch64_mem fuel array start size = .ok (slot, array') ↔
      (array' = array ∧ read_end_batch64 fuel array start size = .ok slot)) := by
  refine ⟨?_, ?_, ?_⟩
  · intro b array'
    rw [read_bit_mem_eq]
    cases read_bit array index with
    | fault e => simp
    | ok v =>
      simp only [Outcome.ok.injEq, Prod.mk.injEq]
      constructor
      · rintro ⟨h1, h2⟩
        exact ⟨h2.symm, h1⟩
      · rintro ⟨h1, h2⟩
        exact ⟨h2, h1.symm⟩
  · intro count array'
    unfold read_batch64_mem read_batch64
    rw [read_batch64_mem_loop_eq]
    cases read_batch64_loop array size fuel (start / size_ull) 0 with
    | fault e => simp
    | ok v =>
      simp only [Outcome.ok.injEq, Prod.mk.injEq]
      constructor
      · rintro ⟨h1, h2⟩
        exact ⟨h2.symm, h1⟩
      · rintro ⟨h1, h2⟩
        exact ⟨h2, h1.symm⟩
  · intro slot array'
    unfold read_end_batch64_mem read_end_batch64
    rw [read_end_batch64_mem_loop_eq]
    cases read_end_batch64_loop array size fuel (start / size_ull) with
    | fault e => simp
    | ok v =>
      simp only [Outcome.ok.injEq, Prod.mk.injEq]
      constructor
      · rintro ⟨h1, h2⟩
        exact ⟨h2.symm, h1⟩
      · rintro ⟨h1, h2⟩
        exact ⟨h2, h1.symm⟩

/-! ## Termination of the scans -/

/-- Total form for `read_end_batch64`: a run of `k` full words followed by a
word that is not full makes the loop return the first slot of that word. -/
theorem read_end_batch64_loop_run (array : Bitmap) (size nw : Nat) (hnw : size / 32 = nw)
    (hwrap : ∀ i, i < nw → wrap_ring i nw = (i + 1) % nw) (hlen : array.length = nw)
    (hsmall : nw ≤ 2048) :
    ∀ (k fuel start_var : Nat), start_var < nw → k < fuel →
      (∀ j, j < k → atomic_load array ((start_var + j) % nw) = .ok UINT_MAX) →
      atomic_load array ((start_var + k) % nw) ≠ .ok UINT_MAX →
      read_end_batch64_loop array size fuel start_var = .ok (32 * ((start_var + k) % nw)) := by
  intro k
  induction k with
  | zero =>
    intro fuel sv hsv hfuel _ hk
    obtain ⟨f, rfl⟩ : ∃ f, fuel = f + 1 := ⟨fuel - 1, by omega⟩
    simp only [Nat.add_zero, Nat.mod_eq_of_lt hsv] at hk ⊢
    rw [read_end_batch64_loop]
    rw [atomic_load_of_lt _ _ (hlen ▸ hsv)] at hk ⊢
    have : array[sv] ≠ UINT_MAX := fun h => hk (by rw [h])
    simp only [this, if_false, size_ull]
    congr 1
    omega
  | succ k ih =>
    intro fuel sv hsv hfuel hrun hk
    obtain ⟨f, rfl⟩ : ∃ f, fuel = f + 1 := ⟨fuel - 1, by omega⟩
    have h0 := hrun 0 (by omega)
    rw [Nat.add_zero, Nat.mod_eq_of_lt hsv] at h0
    have hpos : 0 < nw := by omega
    rw [read_end_batch64_loop, h0]
    simp only [if_true, size_ull, hnw, hwrap sv hsv]
    rw [ih f ((sv + 1) % nw) (Nat.mod_lt _ hpos) (by omega), mod_succ_add]
    · intro j hj
      rw [mod_succ_add]
      exact hrun (j + 1) (by omega)
    · rw [mod_succ_add]
      exact hk

/-- On a bitmap whose words are all full the two scans never end. -/
theorem scans_spin_on_full_bitmap (array : Bitmap) (size nw : Nat) (hnw : size / 32 = nw)
    (hwrap : ∀ i, i < nw → wrap_ring i nw = (i + 1) % nw) (hlen : array.length = nw)
    (hfull : ∀ w ∈ array, w = UINT_MAX) :
    ∀ (fuel start_var processed : Nat), start_var < nw →
      read_batch64_loop array size fuel start_var processed = .fault .out_of_fuel ∧
      read_end_batch64_loop array size fuel start_var = .fault .out_of_fuel := by
  intro fuel
  induction fuel with
  | zero => intro sv p _; exact ⟨rfl, rfl⟩
  | succ f ih =>
    intro sv p hsv
    have hpos : 0 < nw := by omega
    have hlt : sv < array.length := hlen ▸ hsv
    have hv : array[sv] = UINT_MAX := hfull _ (List.getElem_mem hlt)
    obtain ⟨h1, h2⟩ := ih ((sv + 1) % nw) ((p + 32) % 4294967296) (Nat.mod_lt _ hpos)
    constructor
    · rw [read_batch64_loop, atomic_load_of_lt _ _ hlt]
      simp only [hv, if_true, size_ull, hnw, hwrap sv hsv]
      exact h1
    · rw [read_end_batch64_loop, atomic_load_of_lt _ _ hlt]
      simp only [hv, if_true, size_ull, hnw, hwrap sv hsv]
      exact h2

/-- C18 (counterexample): on the ring of 128 slots whose four words are all
`UINT_MAX`, neither `read_batch64(array, 0, 128)` nor
`read_end_batch64(array, 0, 128)` returns a value, whatever the fuel. -/
theorem scans_do_not_return_on_full_ring :
    (¬ ∃ fuel count,
      read_batch64 fuel [4294967295, 4294967295, 4294967295, 4294967295] 0 128
        = .ok count) ∧
    (¬ ∃ fuel slot,
      read_end_batch64 fuel [4294967295, 4294967295, 4294967295, 4294967295] 0 128
        = .ok slot) := by
  have hspin := scans_spin_on_full_bitmap
    [4294967295, 4294967295, 4294967295, 4294967295] 128 4 (by decide) (by decide) rfl
    (by decide)
  constructor
  · rintro ⟨fuel, count, h⟩
    have := (hspin fuel 0 0 (by decide)).1
    unfold read_batch64 at h
    rw [show (0 : Nat) / size_ull = 0 from rfl, this] at h
    exact absurd h (by simp)
  · rintro ⟨fuel, slot, h⟩
    have := (hspin fuel 0 0 (by decide)).2
    unfold read_end_batch64 at h
    rw [show (0 : Nat) / size_ull = 0 from rfl, this] at h
    exact absurd h (by simp)

/-- C18 (amended): on a valid ring, `read_batch64` and `read_end_batch64`
return a value, within `size / 32` loop tests, when at least one word is not
`UINT_MAX`; when every word is `UINT_MAX` neither returns, whatever the
fuel. -/
theorem scans_return_iff_some_word_not_full (size : Nat) (hsize : RingSize size)
    (h16 : size < 65536) (array : Bitmap) (hlen : array.length = size / 32)
    (start : Nat) (hstart : start < size) :
    ((∃ w ∈ array, w ≠ UINT_MAX) →
      ∃ count slot, read_batch64 (size / 32) array start size = .ok count ∧
        read_end_batch64 (size / 32) array start size = .ok slot) ∧
    ((∀ w ∈ array, w = UINT_MAX) →
      ∀ fuel, read_batch64 fuel array start size = .fault .out_of_fuel ∧
        read_end_batch64 fuel array start size = .fault .out_of_fuel) := by
  obtain ⟨hpos, hmul, hwrap⟩ := ring_scan_facts size hsize h16
  have hsv : start / 32 < size / 32 := word_index_lt size start hsize.2 hstart
  constructor
  · intro hsome
    obtain ⟨k, hk, hstop, hrun, hres⟩ :=
      read_batch64_scan size hsize h16 array hlen hsome start hstart
    refine ⟨32 * k, 32 * ((start / 32 + k) % (size / 32)), hres _ hk, ?_⟩
    unfold read_end_batch64
    simp only [size_ull]
    exact read_end_batch64_loop_run array size (size / 32) rfl hwrap hlen (by omega) k
      (size / 32) (start / 32) hsv hk hrun hstop
  · intro hfull fuel
    unfold read_batch64 read_end_batch64
    simp only [size_ull]
    exact scans_spin_on_full_bitmap array size (size / 32) rfl hwrap hlen hfull fuel
      (start / 32) 0 hsv

theorem scans_return_iff_some_word_not_full_witness :
    ((∃ w ∈ [4294967295, 4294967295], w ≠ UINT_MAX) →
      ∃ count slot, read_batch64 (64 / 32) [4294967295, 4294967295] 40 64 = .ok count ∧
        read_end_batch64 (64 / 32) [4294967295, 4294967295] 40 64 = .ok slot) ∧
    ((∀ w ∈ [4294967295, 4294967295], w = UINT_MAX) →
      ∀ fuel, read_batch64 fuel [4294967295, 4294967295] 40 64 = .fault .out_of_fuel ∧
        read_end_batch64 fuel [4294967295, 4294967295] 40 64 = .fault .out_of_fuel) :=
  scans_return_iff_some_word_not_full 64 ⟨⟨6, by decide⟩, by decide⟩ (by decide)
    [4294967295, 4294967295] (by decide) 40 (by decide)

/-! ## Word indices and the ring

An access to a word index that is not smaller than the word count of the
array is reported as `Fault.out_of_bounds`; with an array of `size / 32` words
"every index read or written is smaller than `size / 32`" is therefore "the
call does not end in `Fault.out_of_bounds`". -/

theorem read_batch64_loop_in_ring (array : Bitmap) (size nw : Nat) (hnw : size / 32 = nw)
    (hwrap : ∀ i, i < nw → wrap_ring i nw = (i + 1) % nw) (hlen : array.length = nw) :
    ∀ (fuel start_var processed : Nat), start_var < nw →
      read_batch64_loop array size fuel start_var processed ≠ .fault .out_of_bounds := by
  intro fuel
  induction fuel with
  | zero => intro sv p _; simp [read_batch64_loop]
  | succ f ih =>
    intro sv p hsv
    have hpos : 0 < nw := by omega
    rw [read_batch64_loop, atomic_load_of_lt _ _ (hlen ▸ hsv)]
    simp only [size_ull, hnw, hwrap sv hsv]
    split_ifs
    · exact ih _ _ (Nat.mod_lt _ hpos)
    · simp

theorem write_batch64_loop_in_ring (end_ size nw : Nat)
    (hwrap : ∀ i, i < nw → wrap_ring i nw = (i + 1) % nw) :
    ∀ (fuel : Nat) (array : Bitmap) (start_var step : Nat), array.length = nw →
      start_var < nw →
      write_batch64_loop end_ nw size fuel array start_var step ≠ .fault .out_of_bounds := by
  intro fuel
  induction fuel with
  | zero => intro a sv st _ _; simp [write_batch64_loop]
  | succ f ih =>
    intro a sv st hlen hsv
    have hpos : 0 < nw := by omega
    have hlt : sv < a.length := hlen ▸ hsv
    rw [write_batch64_loop]
    split_ifs
    · simp
    · rw [atomic_load_of_lt _ _ hlt]
      simp only [atomic_store_of_lt _ _ _ hlt, hwrap sv hsv]
      split_ifs
      · simp
      · exact ih _ _ _ (by simpa using hlen) (Nat.mod_lt _ hpos)

theorem or_retry_in_ring (array : Bitmap) (i mask fuel : Nat) (hi : i < array.length) :
    or_retry array i mask fuel = .fault .out_of_fuel ∨
      or_retry array i mask fuel = .ok (array.set i (array[i] ||| mask)) := by
  rcases fuel with _ | f
  · exact Or.inl rfl
  · exact Or.inr (or_retry_of_lt _ _ _ _ hi (Nat.succ_pos f))

theorem write_batch_is_done_loop_in_ring (nw ev cf : Nat)
    (hwrap : ∀ i, i < nw → wrap_ring i nw = (i + 1) % nw) :
    ∀ (fuel : Nat) (a : Bitmap) (sv so : Nat), a.length = nw → sv < nw →
      write_batch_is_done_loop ev nw cf fuel a sv so = .fault .out_of_fuel ∨
        ∃ a' so', write_batch_is_done_loop ev nw cf fuel a sv so = .ok (a', ev, so') ∧
          a'.length = nw := by
  intro fuel
  induction fuel with
  | zero => intro a sv so _ _; exact Or.inl rfl
  | succ f ih =>
    intro a sv so hlen hsv
    have hpos : 0 < nw := by omega
    rw [write_batch_is_done_loop]
    split_ifs with hse
    · exact Or.inr ⟨a, so, by rw [hse], hlen⟩
    · rcases or_retry_in_ring a sv ((UINT_MAX <<< so) % 4294967296) cf (hlen ▸ hsv)
        with h | h
      · simp only [h]
        exact Or.inl trivial
      · simp only [h, hwrap sv hsv]
        exact ih _ _ _ (by simpa using hlen) (Nat.mod_lt _ hpos)

/-- On a valid ring the word cursor of `read_batch64` stays in the ring, and
up to 4096 entries so do the word cursors of `write_batch64` and
`write_batch_is_done`: no call ends in an access outside the array. -/
theorem word_indices_in_ring (size : Nat) (hsize : RingSize size) (h16 : size < 65536)
    (array : Bitmap) (hlen : array.length = size / 32) (start end_ : Nat)
    (hs : start < size) (he : end_ < size) (fuel : Nat) :
    read_batch64 fuel array start size ≠ .fault .out_of_bounds ∧
    (size ≤ 4096 →
      write_batch64 fuel array start end_ size ≠ .fault .out_of_bounds ∧
      write_batch_is_done fuel array start end_ size ≠ .fault .out_of_bounds) := by
  obtain ⟨hpos, hmul, hwrap⟩ := ring_scan_facts size hsize h16
  have hsv : start / 32 < size / 32 := word_index_lt size start hsize.2 hs
  have hev : end_ / 32 < size / 32 := word_index_lt size end_ hsize.2 he
  refine ⟨?_, fun h4096 => ⟨?_, ?_⟩⟩
  · unfold read_batch64
    simp only [size_ull]
    exact read_batch64_loop_in_ring array size (size / 32) rfl hwrap hlen fuel _ _ hsv
  · obtain ⟨hsa, _, _⟩ := ring_drain_facts size hsize h4096
    simp only [write_batch64, hsa]
    simp only [size_ull]
    exact write_batch64_loop_in_ring end_ size (size / 32) hwrap fuel array _ _ hlen hsv
  · obtain ⟨hsa, _, _⟩ := ring_drain_facts size hsize h4096
    simp only [size_ull] at hsa
    simp only [write_batch_is_done, size_ull, hsa]
    rcases write_batch_is_done_loop_in_ring (size / 32) (end_ / 32) fuel hwrap fuel array
      (start / 32) (start % 32) hlen hsv with h | ⟨a', so', h, hlen'⟩
    · simp [h]
    · simp only [h]
      rcases or_retry_in_ring a' (end_ / 32)
        ((UINT_MAX <<< so') % 4294967296 &&&
          UINT_MAX >>> ((32 + 4294967296 - end_ % 32 - 1) % 4294967296)) fuel
        (hlen' ▸ hev) with h2 | h2
      · rw [h2]; simp
      · rw [h2]; simp

set_option maxRecDepth 100000 in
/-- C17 (failing inputs): above 4096 entries the `uint8_t` word count of
`write_batch64` and `write_batch_is_done` is 0 and their word cursor is not
wrapped.  Ring size 32768 (1024 words, all `UINT_MAX`):
`write_batch64(array, 32736, 32, 32768)` moves `start_var` from 1023 to 1024
and accesses word 1024.  Ring size 16384 (512 words):
`write_batch_is_done(array, 16383, 0, 16384)` moves `start_var` from 511 to
512 and accesses word 512.  Both for every fuel of at least 2. -/
theorem word_cursor_leaves_ring_above_4096 :
    ((32768 / size_ull) % 256 = 0 ∧ write_batch64_var 32736 32768 1 = 1024 ∧
      ¬ (1024 < 32768 / 32) ∧
      ∀ f : Nat, write_batch64 (f + 2) (List.replicate 1024 UINT_MAX) 32736 32 32768
        = .fault .out_of_bounds) ∧
    ((16384 / size_ull) % 256 = 0 ∧ wrap_ring (16383 / 32) ((16384 / size_ull) % 256) = 512 ∧
      ¬ (512 < 16384 / 32) ∧
      ∀ f : Nat, write_batch_is_done (f + 2) (List.replicate 512 0) 16383 0 16384
        = .fault .out_of_bounds) := by
  refine ⟨⟨by decide, by decide, by decide, fun f => rfl⟩,
    by decide, by decide, by decide, fun f => rfl⟩

/-! ## Concurrent `write_bit` -/

theorem returned_mask_set_same (ts : List Writer) :
    ∀ (i : Nat) (t t' : Writer), ts[i]? = some t → t'.varr = t.varr →
      (t'.pc = .returned ↔ t.pc = .returned) →
      returned_mask (ts.set i t') = returned_mask ts := by
  induction ts with
  | nil => intro i t t' h; simp at h
  | cons a ts ih =>
    intro i t t' h hv hp
    rcases i with _ | i
    · simp only [List.getElem?_cons_zero, Option.some.injEq] at h
      subst h
      simp only [List.set_cons_zero, returned_mask, hv]
      by_cases hr : a.pc = .returned
      · rw [if_pos (hp.2 hr), if_pos hr]
      · rw [if_neg (fun h => hr (hp.1 h)), if_neg hr]
    · simp only [List.getElem?_cons_succ] at h
      simp only [List.set_cons_succ, returned_mask]
      rw [ih i t t' h hv hp]

theorem returned_mask_set_returned (ts : List Writer) :
    ∀ (i : Nat) (t t' : Writer), ts[i]? = some t → t'.varr = t.varr →
      t'.pc = .returned →
      returned_mask (ts.set i t') = t.varr ||| returned_mask ts := by
  induction ts with
  | nil => intro i t t' h; simp at h
  | cons a ts ih =>
    intro i t t' h hv hp
    rcases i with _ | i
    · simp only [List.getElem?_cons_zero, Option.some.injEq] at h
      subst h
      simp only [List.set_cons_zero, returned_mask, hv, hp, if_true]
      split_ifs
      · rw [← Nat.lor_assoc, Nat.or_self]
      · rfl
    · simp only [List.getElem?_cons_succ] at h
      simp only [List.set_cons_succ, returned_mask]
      rw [ih i t t' h hv hp]
      split_ifs
      · rw [← Nat.lor_assoc, ← Nat.lor_assoc, Nat.lor_comm a.varr t.varr]
      · rfl

/-- One step keeps the masks of the threads, and keeps the shared word equal
to the initial word or-ed with the masks of the threads that have returned. -/
theorem race_step_invariant (word0 : Nat) (s : Race) (i : Nat) (spurious : Bool)
    (hinv : s.word = word0 ||| returned_mask s.writers) :
    (race_step s i spurious).word = word0 ||| returned_mask (race_step s i spurious).writers ∧
      (race_step s i spurious).writers.map Writer.varr = s.writers.map Writer.varr := by
  unfold race_step
  cases ht : s.writers[i]? with
  | none => exact ⟨hinv, rfl⟩
  | some t =>
    have hmap : ∀ t' : Writer, t'.varr = t.varr →
        (s.writers.set i t').map Writer.varr = s.writers.map Writer.varr := by
      intro t' hv
      rw [List.map_set, hv]
      apply List.ext_getElem? 
      intro n
      rw [List.getElem?_set]
      split_ifs with h1 h2
      · subst h1
        rw [List.getElem?_map, ht]
        rfl
      · subst h1
        rw [List.getElem?_eq_none (by simpa using h2)]
      · rfl
    simp only
    unfold writer_step
    cases hpc : t.pc with
    | at_load =>
      simp only
      refine ⟨?_, hmap _ rfl⟩
      rw [returned_mask_set_same s.writers i t { varr := t.varr, pc := .at_cas s.word } ht rfl
        (by simp [hpc])]
      exact hinv
    | at_cas var2 =>
      simp only
      split_ifs with hc
      · refine ⟨?_, hmap _ rfl⟩
        simp only
        rw [returned_mask_set_returned s.writers i t { varr := t.varr, pc := .returned } ht rfl
          rfl, ← hc.1, hinv]
        rw [← Nat.lor_assoc, Nat.lor_comm t.varr word0, Nat.lor_assoc]
      · refine ⟨?_, hmap _ rfl⟩
        simp only
        rw [returned_mask_set_same s.writers i t { varr := t.varr, pc := .at_load } ht rfl
          (by simp [hpc])]
        exact hinv
    | returned =>
      simp only
      refine ⟨?_, hmap _ rfl⟩
      rw [returned_mask_set_same s.writers i t t ht rfl Iff.rfl]
      exact hinv

theorem race_run_invariant (word0 : Nat) :
    ∀ (schedule : List (Nat × Bool)) (s : Race),
      s.word = word0 ||| returned_mask s.writers →
      (race_run s schedule).word = word0 ||| returned_mask (race_run s schedule).writers ∧
        (race_run s schedule).writers.map Writer.varr = s.writers.map Writer.varr := by
  intro schedule
  induction schedule with
  | nil => intro s h; exact ⟨h, rfl⟩
  | cons x rest ih =>
    intro s h
    obtain ⟨i, sp⟩ := x
    obtain ⟨h1, h2⟩ := race_step_invariant word0 s i sp h
    obtain ⟨h3, h4⟩ := ih (race_step s i sp) h1
    exact ⟨h3, h4.trans h2⟩

theorem returned_mask_all_returned (ts : List Writer) (h : ∀ t ∈ ts, t.pc = .returned) :
    returned_mask ts = (ts.map Writer.varr).foldr (fun m acc => m ||| acc) 0 := by
  induction ts with
  | nil => rfl
  | cons a ts ih =>
    simp only [returned_mask, h a (by simp), if_true, List.map_cons, List.foldr_cons]
    rw [ih (fun t ht => h t (by simp [ht]))]

theorem returned_mask_none_returned (ts : List Writer) (h : ∀ t ∈ ts, t.pc = .at_load) :
    returned_mask ts = 0 := by
  induction ts with
  | nil => rfl
  | cons a ts ih =>
    simp only [returned_mask, h a (by simp)]
    exact ih (fun t ht => h t (by simp [ht]))

/-- A single thread that takes its two steps computes what the sequential
`write_bit` computes. -/
theorem write_bit_is_one_writer (array : Bitmap) (bit : Nat) (h : bit / 32 < array.length) :
    write_bit 1 array bit = .ok (array.set (bit / 32)
      (race_run { word := array[bit / 32], writers := [Writer.enter bit] }
        [(0, false), (0, false)]).word) := by
  rw [write_bit_of_lt 1 array bit h (by decide)]
  simp [race_run, race_step, writer_step, Writer.enter, size_ull,
    one_shl_mod _ (Nat.mod_lt bit (by norm_num : 0 < 32)), Nat.lor_comm]

theorem enter_mask (bit : Nat) : (Writer.enter bit).varr = 2 ^ (bit % 32) := by
  simp only [Writer.enter, size_ull]
  exact one_shl_mod _ (Nat.mod_lt bit (by norm_num))

theorem testBit_foldr_lor (masks : List Nat) (k : Nat) :
    (masks.foldr (fun m acc => m ||| acc) 0).testBit k = true ↔
      ∃ m ∈ masks, m.testBit k = true := by
  induction masks with
  | nil => simp
  | cons a ms ih =>
    simp only [List.foldr_cons, Nat.testBit_lor, Bool.or_eq_true, ih, List.mem_cons,
      exists_eq_or_imp]

/-- C19: threads run `write_bit` on the indices `bits` of one word, whose
initial value is `word0`, their loads and compare-exchanges interleaved by an
arbitrary schedule (spurious failures of the weak compare-exchange included).
Whenever all the threads have returned, the word is `word0` or-ed with the
bits of all the threads: the bit of every thread is set and no update is
lost. -/
theorem concurrent_write_bit_no_lost_update (word0 : Nat) (bits : List Nat)
    (schedule : List (Nat × Bool))
    (hdone : ∀ t ∈ (race_run { word := word0, writers := bits.map Writer.enter }
      schedule).writers, t.pc = .returned) :
    (race_run { word := word0, writers := bits.map Writer.enter } schedule).word =
        word0 ||| (bits.map (fun b => 2 ^ (b % 32))).foldr (fun m acc => m ||| acc) 0 ∧
      ∀ b ∈ bits,
        (race_run { word := word0, writers := bits.map Writer.enter } schedule).word.testBit
          (b % 32) = true := by
  have hinit : ({ word := word0, writers := bits.map Writer.enter } : Race).word =
      word0 ||| returned_mask
        ({ word := word0, writers := bits.map Writer.enter } : Race).writers := by
    simp only
    rw [returned_mask_none_returned _ (by
      intro t ht
      obtain ⟨b, _, rfl⟩ := List.mem_map.1 ht
      rfl)]
    simp
  obtain ⟨hword, hmasks⟩ := race_run_invariant word0 schedule _ hinit
  have hall := returned_mask_all_returned _ hdone
  have hm : (bits.map Writer.enter).map Writer.varr = bits.map (fun b => 2 ^ (b % 32)) := by
    rw [List.map_map]
    apply List.map_congr_left
    intro b _
    exact enter_mask b
  have hfinal : (race_run { word := word0, writers := bits.map Writer.enter } schedule).word =
      word0 ||| (bits.map (fun b => 2 ^ (b % 32))).foldr (fun m acc => m ||| acc) 0 := by
    rw [hword, hall, hmasks, hm]
  refine ⟨hfinal, fun b hb => ?_⟩
  rw [hfinal, Nat.testBit_lor, Bool.or_eq_true]
  right
  rw [testBit_foldr_lor]
  exact ⟨2 ^ (b % 32), List.mem_map.2 ⟨b, hb, rfl⟩, Nat.testBit_two_pow_self⟩

theorem concurrent_write_bit_no_lost_update_witness :
    (race_run { word := 5, writers := [33, 40].map Writer.enter }
        [(0, false), (1, false), (0, false), (1, false), (1, false), (1, true), (1, false),
          (1, false)]).word =
        5 ||| ([33, 40].map (fun b => 2 ^ (b % 32))).foldr (fun m acc => m ||| acc) 0 ∧
      ∀ b ∈ [33, 40],
        (race_run { word := 5, writers := [33, 40].map Writer.enter }
          [(0, false), (1, false), (0, false), (1, false), (1, false), (1, true), (1, false),
            (1, false)]).word.testBit (b % 32) = true :=
  concurrent_write_bit_no_lost_update 5 [33, 40]
    [(0, false), (1, false), (0, false), (1, false), (1, false), (1, true), (1, false),
      (1, false)] (by decide)

/-! ## No check of the ring size -/

theorem not_two_pow_192 : ¬ ∃ n, 192 = 2 ^ n := by
  rintro ⟨n, hn⟩
  have h7 : n < 8 := lt_of_two_pow_lt n 8 (by omega)
  interval_cases n <;> omega

/-- C20 (counterexample): with the ring size 192, a multiple of 32 that is not
a power of two, and with the ring size 100, not even a multiple of 32, the
operations run as usual: the scans return a count and a slot, the two writers
change the array and return, and `read_most_significant_bit` returns an
index.  None rejects the size. -/
theorem invalid_ring_size_not_rejected :
    (¬ ∃ n, 192 = 2 ^ n) ∧ ¬ (32 ∣ 100) ∧
    read_batch64 2 [4294967295, 0, 0, 0, 0, 0] 0 192 = .ok 32 ∧
    read_end_batch64 2 [4294967295, 0, 0, 0, 0, 0] 0 192 = .ok 32 ∧
    write_batch64 2 [4294967295, 0, 0, 0, 0, 0] 0 32 192 = .ok [0, 0, 0, 0, 0, 0] ∧
    write_batch_is_done 1 [0, 0, 0] 0 31 100 = .ok [4294967295, 0, 0] ∧
    read_most_significant_bit 1 [5] 0 100 = .ok 2 := by
  refine ⟨not_two_pow_192, by decide, by decide, by decide, by decide, by decide, by decide⟩

/-- C20 (amended): no operation looks at the ring size before it accesses the
array.  Whatever `size` is (a power of two or not, a multiple of the word
width or not), each operation starts with word `start / 32` (`start / 64` for
`read_most_significant_bit`), and when its scan or range ends in that word
its result is the same for every `size`: the scans return at once on a word
that is not full, `write_batch64` with `end = start` returns the array as it
is, `write_batch_is_done` within one word or-s its mask into that word, and
`read_most_significant_bit` returns from a word that is not zero and has its
top bit clear. -/
theorem operations_do_not_check_size (size : Nat) (array : Bitmap) (start end_ fuel : Nat)
    (hfuel : 0 < fuel) (hin : start / 32 < array.length) :
    (array[start / 32] ≠ UINT_MAX →
      read_batch64 fuel array start size = .ok 0 ∧
      read_end_batch64 fuel array start size = .ok ((start / 32 * 32) % 4294967296)) ∧
    write_batch64 fuel array start start size = .ok array ∧
    (start / 32 = end_ / 32 →
      write_batch_is_done fuel array start end_ size =
        .ok (array.set (start / 32) (array[start / 32] |||
          ((UINT_MAX <<< (start % 32)) % 4294967296 &&&
            UINT_MAX >>> ((32 + 4294967296 - end_ % 32 - 1) % 4294967296))))) ∧
    (∀ (words : List Nat) (w : Nat), words[start / 64]? = some w → w ≠ 0 →
      w.testBit 63 = false →
      read_most_significant_bit fuel words start size =
        .ok (if start / 64 = 0 then (64 + 4294967296 - leading_zeros w 64 - 1) % 4294967296
          else ((start / 64 * 64) % 4294967296 + 4294967296 - leading_zeros w 64)
            % 4294967296)) := by
  obtain ⟨f, rfl⟩ : ∃ f, fuel = f + 1 := ⟨fuel - 1, by omega⟩
  refine ⟨fun hw => ⟨?_, ?_⟩, ?_, fun hse => ?_, fun words w hws hne hclear => ?_⟩
  · simp only [read_batch64, read_batch64_loop, size_ull, atomic_load_of_lt _ _ hin, hw,
      if_false]
  · simp only [read_end_batch64, read_end_batch64_loop, size_ull, atomic_load_of_lt _ _ hin,
      hw, if_false]
  · simp only [write_batch64, write_batch64_loop, if_true]
  · simp only [write_batch_is_done, write_batch_is_done_loop, size_ull, hse, if_true]
    exact or_retry_of_lt _ _ _ _ (hse ▸ hin) (Nat.succ_pos f)
  · have hlz : leading_zeros w 64 ≠ 0 := by
      intro h
      rw [(leading_zeros_eq_zero_iff _ 63).1 h] at hclear
      exact absurd hclear (by simp)
    simp only [read_most_significant_bit, read_most_significant_bit_loop, size_ull64, load_ull,
      hws, builtin_clzll_of_ne_zero _ hne, hlz, if_false]
    split_ifs <;> rfl

theorem operations_do_not_check_size_witness :
    (([4294967295, 6, 0] : Bitmap)[40 / 32] ≠ UINT_MAX →
      read_batch64 1 [4294967295, 6, 0] 40 100 = .ok 0 ∧
      read_end_batch64 1 [4294967295, 6, 0] 40 100 = .ok ((40 / 32 * 32) % 4294967296)) ∧
    write_batch64 1 [4294967295, 6, 0] 40 40 100 = .ok [4294967295, 6, 0] ∧
    (40 / 32 = 50 / 32 →
      write_batch_is_done 1 [4294967295, 6, 0] 40 50 100 =
        .ok (([4294967295, 6, 0] : Bitmap).set (40 / 32)
          (([4294967295, 6, 0] : Bitmap)[40 / 32] |||
          ((UINT_MAX <<< (40 % 32)) % 4294967296 &&&
            UINT_MAX >>> ((32 + 4294967296 - 50 % 32 - 1) % 4294967296))))) ∧
    (∀ (words : List Nat) (w : Nat), words[40 / 64]? = some w → w ≠ 0 →
      w.testBit 63 = false →
      read_most_significant_bit 1 words 40 100 =
        .ok (if 40 / 64 = 0 then (64 + 4294967296 - leading_zeros w 64 - 1) % 4294967296
          else ((40 / 64 * 64) % 4294967296 + 4294967296 - leading_zeros w 64)
            % 4294967296)) :=
  operations_do_not_check_size 100 [4294967295, 6, 0] 40 50 1 (by decide) (by decide)

/-! ## Frame of `write_bit` and the two scans -/

/-- C23: on a valid ring `write_bit(array, i)` returns, `read_bit` of every
slot other than `i` is the same after the call as before it, and every slot
that read true before still reads true. -/
theorem write_bit_frame (size : Nat) (hsize : RingSize size) (array : Bitmap)
    (hlen : array.length = size / 32) (i : Nat) (hi : i < size) (fuel : Nat)
    (hfuel : 0 < fuel) :
    ∃ array', write_bit fuel array i = .ok array' ∧
      (∀ j, j ≠ i → read_bit array' j = read_bit array j) ∧
      (∀ j, read_bit array j = .ok true → read_bit array' j = .ok true) := by
  have hw : i / 32 < array.length := hlen ▸ word_index_lt size i hsize.2 hi
  refine ⟨_, write_bit_of_lt fuel array i hw hfuel, ?_, ?_⟩
  · intro j hj
    rw [read_bit_eq, read_bit_eq, List.getElem?_set]
    by_cases hwj : i / 32 = j / 32
    · rw [if_pos hwj, if_pos hw, ← hwj, List.getElem?_eq_getElem hw]
      simp only
      congr 1
      rw [Nat.testBit_lor, Nat.testBit_two_pow]
      have : i % 32 ≠ j % 32 := by omega
      simp [this]
    · rw [if_neg hwj]
  · intro j hj
    rw [read_bit_eq] at hj
    rw [read_bit_eq, List.getElem?_set]
    by_cases hwj : i / 32 = j / 32
    · rw [if_pos hwj, if_pos hw]
      rw [← hwj, List.getElem?_eq_getElem hw] at hj
      simp only [Outcome.ok.injEq] at hj
      simp only
      congr 1
      rw [Nat.testBit_lor, hj]
      rfl
    · rw [if_neg hwj]
      exact hj

theorem write_bit_frame_witness :
    ∃ array', write_bit 1 [5, 4294967295, 0, 8] 64 = .ok array' ∧
      (∀ j, j ≠ 64 → read_bit array' j = read_bit [5, 4294967295, 0, 8] j) ∧
      (∀ j, read_bit [5, 4294967295, 0, 8] j = .ok true → read_bit array' j = .ok true) :=
  write_bit_frame 128 ⟨⟨7, by decide⟩, by decide⟩ [5, 4294967295, 0, 8] (by decide) 64
    (by decide) 1 (by decide)

/-- C24: on a valid ring with at least one word that is not `UINT_MAX`,
`read_batch64` returns a count and `read_end_batch64` returns
`(32 * (start / 32) + count) % size`, the first slot of the word at which the
scan stops, for every fuel of at least `size / 32`. -/
theorem read_end_batch64_eq_start_plus_count (size : Nat) (hsize : RingSize size)
    (h16 : size < 65536) (array : Bitmap) (hlen : array.length = size / 32)
    (hsome : ∃ w ∈ array, w ≠ UINT_MAX) (start : Nat) (hstart : start < size) :
    ∃ count, ∀ fuel, size / 32 ≤ fuel →
      read_batch64 fuel array start size = .ok count ∧
      read_end_batch64 fuel array start size = .ok ((32 * (start / 32) + count) % size) := by
  obtain ⟨hpos, hmul, hwrap⟩ := ring_scan_facts size hsize h16
  have hsv : start / 32 < size / 32 := word_index_lt size start hsize.2 hstart
  obtain ⟨k, hk, hstop, hrun, hres⟩ :=
    read_batch64_scan size hsize h16 array hlen hsome start hstart
  refine ⟨32 * k, fun fuel hfuel => ⟨hres fuel (by omega), ?_⟩⟩
  have hend := read_end_batch64_loop_run array size (size / 32) rfl hwrap hlen (by omega) k
    fuel (start / 32) hsv (by omega) hrun hstop
  have hmod : (32 * (start / 32) + 32 * k) % size = 32 * ((start / 32 + k) % (size / 32)) := by
    rw [← Nat.mul_add]
    conv_lhs => rw [← hmul]
    exact Nat.mul_mod_mul_left 32 _ _
  unfold read_end_batch64
  simp only [size_ull]
  rw [hend, hmod]

theorem read_end_batch64_eq_start_plus_count_witness :
    ∃ count, ∀ fuel, 128 / 32 ≤ fuel →
      read_batch64 fuel [4294967295, 7, 4294967295, 4294967295] 70 128 = .ok count ∧
      read_end_batch64 fuel [4294967295, 7, 4294967295, 4294967295] 70 128
        = .ok ((32 * (70 / 32) + count) % 128) :=
  read_end_batch64_eq_start_plus_count 128 ⟨⟨7, by decide⟩, by decide⟩ (by decide)
    [4294967295, 7, 4294967295, 4294967295] (by decide) ⟨7, by decide, by decide⟩ 70
    (by decide)

/-! ## What `write_batch64` leaves behind -/

/-- The loop with the memory threaded through ends the way the plain loop
does, and on a normal return leaves the array the plain loop returns. -/
theorem write_batch64_mem_loop_eq (end_ size_array size : Nat) :
    ∀ (fuel : Nat) (array : Bitmap) (start_var step examined : Nat),
      write_batch64_loop end_ size_array size fuel array start_var step =
        match (write_batch64_mem_loop end_ size_array size fuel array start_var step
          examined).2.2 with
        | .ok _ =>
          .ok (write_batch64_mem_loop end_ size_array size fuel array start_var step
            examined).1
        | .fault f => .fault f := by
  intro fuel
  induction fuel with
  | zero => intro a sv st n; rfl
  | succ f ih =>
    intro a sv st n
    rw [write_batch64_loop, write_batch64_mem_loop]
    by_cases hstep : st = end_
    · simp only [hstep, if_true]
    · simp only [hstep, if_false]
      cases hl : atomic_load a sv with
      | fault e => rfl
      | ok v =>
        simp only
        by_cases hv : v = UINT_MAX
        · simp only [hv, ne_eq, not_true_eq_false, if_false]
          cases hs : atomic_store a sv 0 with
          | fault e => rfl
          | ok a1 =>
            simp only
            exact ih a1 _ _ (n + 1)
        · simp only [ne_eq, hv, not_false_eq_true, if_true]

/-- Every word that the loop of `write_batch64` leaves different from what it
was held `UINT_MAX`, holds 0, and is one of the words visited before the step
cursor reached `end_`; and the length of the array is kept. -/
theorem write_batch64_mem_loop_changes (end_ size_array size : Nat) :
    ∀ (fuel : Nat) (array : Bitmap) (start_var step examined : Nat),
      (write_batch64_mem_loop end_ size_array size fuel array start_var step
          examined).1.length = array.length ∧
      ∀ i : Nat,
        (write_batch64_mem_loop end_ size_array size fuel array start_var step
          examined).1[i]? ≠ array[i]? →
        array[i]? = some UINT_MAX ∧
        (write_batch64_mem_loop end_ size_array size fuel array start_var step
          examined).1[i]? = some 0 ∧
        ∃ k, i = (fun v => wrap_ring v size_array)^[k] start_var ∧
          ∀ j, j ≤ k → (fun s => wrap_ring_n s size_ull size)^[j] step ≠ end_ := by
  intro fuel
  induction fuel with
  | zero =>
    intro a sv st n
    exact ⟨rfl, fun i h => absurd rfl h⟩
  | succ f ih =>
    intro a sv st n
    rw [write_batch64_mem_loop]
    by_cases hstep : st = end_
    · simp [hstep]
    · simp only [hstep, if_false]
      by_cases hlt : sv < a.length
      · rw [atomic_load_of_lt _ _ hlt]
        simp only
        by_cases hv : a[sv] = UINT_MAX
        · simp only [hv, ne_eq, not_true_eq_false, if_false, atomic_store_of_lt _ _ _ hlt]
          obtain ⟨hlen, hch⟩ := ih (a.set sv 0) (wrap_ring sv size_array)
            (wrap_ring_n st size_ull size) (n + 1)
          refine ⟨by simpa using hlen, fun i hi => ?_⟩
          by_cases his : sv = i
          · subst his
            have hset : (a.set sv 0)[sv]? = some 0 := by simp [List.getElem?_set, hlt]
            have hsame : (write_batch64_mem_loop end_ size_array size f (a.set sv 0)
                (wrap_ring sv size_array) (wrap_ring_n st size_ull size) (n + 1)).1[sv]?
                = some 0 := by
              by_contra hne
              have := (hch sv (by rw [hset]; exact hne)).1
              rw [hset] at this
              exact absurd this (by decide)
            refine ⟨by rw [List.getElem?_eq_getElem hlt, hv], hsame, 0, rfl, ?_⟩
            intro j hj
            have : j = 0 := by omega
            subst this
            exact hstep
          · have hset : (a.set sv 0)[i]? = a[i]? := by simp [List.getElem?_set, his]
            obtain ⟨h1, h2, k, hk1, hk2⟩ := hch i (by rw [hset]; exact hi)
            refine ⟨by rw [← hset]; exact h1, h2, k + 1, ?_, ?_⟩
            · rw [Function.iterate_succ_apply]
              exact hk1
            · intro j hj
              rcases j with _ | j
              · exact hstep
              · rw [Function.iterate_succ_apply]
                exact hk2 j (by omega)
        · simp [hv]
      · have : atomic_load a sv = .fault .out_of_bounds := by
          simp [atomic_load, List.getElem?_eq_none (not_lt.1 hlt)]
        rw [this]
        exact ⟨rfl, fun i h => absurd rfl h⟩

/-- C21: however `write_batch64` ends (normal return, `exit(1)`, or otherwise),
for every array, start, end, size and fuel: the call ends the way the plain
model says and on a return leaves the array that model returns; the length of
the array is kept; and every word `i` that differs between the initial and the
final array held `UINT_MAX` initially, holds 0 finally, and is a word of the
traversed run, visited before the step cursor reached `end_`. -/
theorem write_batch64_clears_only_full_words (fuel : Nat) (array : Bitmap)
    (start end_ size i : Nat) :
    (write_batch64 fuel array start end_ size =
      match (write_batch64_mem fuel array start end_ size).2.2 with
      | .ok _ => .ok (write_batch64_mem fuel array start end_ size).1
      | .fault f => .fault f) ∧
    (write_batch64_mem fuel array start end_ size).1.length = array.length ∧
    ((write_batch64_mem fuel array start end_ size).1[i]? ≠ array[i]? →
      array[i]? = some UINT_MAX ∧
      (write_batch64_mem fuel array start end_ size).1[i]? = some 0 ∧
      ∃ k, i = write_batch64_var start size k ∧
        ∀ j, j ≤ k → write_batch64_step start size j ≠ end_) := by
  obtain ⟨hlen, hch⟩ := write_batch64_mem_loop_changes end_ ((size / size_ull) % 256) size
    fuel array (start / size_ull) start 0
  exact ⟨write_batch64_mem_loop_eq _ _ _ fuel array _ _ 0, hlen, hch i⟩

theorem write_batch64_clears_only_full_words_witness :
    (write_batch64 4 [4294967295, 7, 4294967295, 4294967295] 0 96 128 =
      match (write_batch64_mem 4 [4294967295, 7, 4294967295, 4294967295] 0 96 128).2.2 with
      | .ok _ => .ok (write_batch64_mem 4 [4294967295, 7, 4294967295, 4294967295] 0 96 128).1
      | .fault f => .fault f) ∧
    (write_batch64_mem 4 [4294967295, 7, 4294967295, 4294967295] 0 96 128).1.length =
      [4294967295, 7, 4294967295, 4294967295].length ∧
    ((write_batch64_mem 4 [4294967295, 7, 4294967295, 4294967295] 0 96 128).1[0]? ≠
        [4294967295, 7, 4294967295, 4294967295][0]? →
      [4294967295, 7, 4294967295, 4294967295][0]? = some UINT_MAX ∧
      (write_batch64_mem 4 [4294967295, 7, 4294967295, 4294967295] 0 96 128).1[0]? = some 0 ∧
      ∃ k, 0 = write_batch64_var 0 128 k ∧
        ∀ j, j ≤ k → write_batch64_step 0 128 j ≠ 96) :=
  write_batch64_clears_only_full_words 4 [4294967295, 7, 4294967295, 4294967295] 0 96 128 0

/-! ## Termination of `write_batch64` and the drain round trip -/

/-- The loop of `write_batch64` on a ring whose word cursor wraps: when a
word that is not full lies `m` words ahead, the loop ends within `m + 1` loop
tests, by a return or by `exit(1)`, having examined at most `m + 1` words. -/
theorem write_batch64_mem_loop_bound (end_ size nw : Nat)
    (hwrap : ∀ i, i < nw → wrap_ring i nw = (i + 1) % nw) :
    ∀ (m fuel : Nat) (array : Bitmap) (start_var step examined : Nat), array.length = nw →
      start_var < nw → m < fuel → array[(start_var + m) % nw]? ≠ some UINT_MAX →
      ((write_batch64_mem_loop end_ nw size fuel array start_var step examined).2.2 = .ok () ∨
        (write_batch64_mem_loop end_ nw size fuel array start_var step examined).2.2
          = .fault .exit_failure) ∧
      (write_batch64_mem_loop end_ nw size fuel array start_var step examined).2.1
        ≤ examined + m + 1 := by
  intro m
  induction m with
  | zero =>
    intro fuel a sv st n hlen hsv hfuel hnot
    obtain ⟨f, rfl⟩ : ∃ f, fuel = f + 1 := ⟨fuel - 1, by omega⟩
    have hlt : sv < a.length := hlen ▸ hsv
    rw [Nat.add_zero, Nat.mod_eq_of_lt hsv, List.getElem?_eq_getElem hlt] at hnot
    have hv : a[sv] ≠ UINT_MAX := fun h => hnot (by rw [h])
    rw [write_batch64_mem_loop]
    by_cases hstep : st = end_
    · simp [hstep]
    · simp [hstep, atomic_load_of_lt _ _ hlt, hv]
  | succ m ih =>
    intro fuel a sv st n hlen hsv hfuel hnot
    obtain ⟨f, rfl⟩ : ∃ f, fuel = f + 1 := ⟨fuel - 1, by omega⟩
    have hlt : sv < a.length := hlen ▸ hsv
    have hpos : 0 < nw := by omega
    rw [write_batch64_mem_loop]
    by_cases hstep : st = end_
    · simp only [hstep, if_true]
      exact ⟨Or.inl trivial, by omega⟩
    · by_cases hv : a[sv] = UINT_MAX
      · simp only [hstep, if_false, atomic_load_of_lt _ _ hlt, hv, ne_eq, not_true_eq_false,
          atomic_store_of_lt _ _ _ hlt, hwrap sv hsv]
        have := ih f (a.set sv 0) ((sv + 1) % nw) (wrap_ring_n st size_ull size) (n + 1)
          (by simpa using hlen) (Nat.mod_lt _ hpos) (by omega) (by
            rw [mod_succ_add, List.getElem?_set]
            by_cases h : sv = (sv + (m + 1)) % nw
            · rw [if_pos h, if_pos hlt]
              simp [UINT_MAX]
            · rw [if_neg h]
              exact hnot)
        refine ⟨this.1, ?_⟩
        have h2 := this.2
        omega
      · simp only [hstep, if_false, atomic_load_of_lt _ _ hlt, ne_eq, hv, not_false_eq_true,
          if_true]
        exact ⟨Or.inr trivial, by omega⟩

/-- On a valid ring of at most 4096 entries `write_batch64` ends within
`size / 32 + 1` loop tests, by a return or by `exit(1)`, whatever `end_` is,
and has then examined at most `size / 32 + 1` words. -/
theorem write_batch64_mem_ends (size : Nat) (hsize : RingSize size) (h4096 : size ≤ 4096)
    (array : Bitmap) (hlen : array.length = size / 32) (start : Nat) (hstart : start < size)
    (end_ fuel : Nat) (hfuel : size / 32 + 1 ≤ fuel) :
    ((write_batch64_mem fuel array start end_ size).2.2 = .ok () ∨
      (write_batch64_mem fuel array start end_ size).2.2 = .fault .exit_failure) ∧
    (write_batch64_mem fuel array start end_ size).2.1 ≤ size / 32 + 1 := by
  obtain ⟨hsa, hwrap, _⟩ := ring_drain_facts size hsize h4096
  obtain ⟨hpos, _, _⟩ := ring_scan_facts size hsize (by omega)
  have hsv : start / 32 < size / 32 := word_index_lt size start hsize.2 hstart
  have hlt : start / 32 < array.length := hlen ▸ hsv
  obtain ⟨f, rfl⟩ : ∃ f, fuel = f + 1 := ⟨fuel - 1, by omega⟩
  simp only [write_batch64_mem, hsa]
  simp only [size_ull]
  by_cases hv : array[start / 32] = UINT_MAX
  · rw [write_batch64_mem_loop]
    by_cases hstep : start = end_
    · simp [hstep]
    · simp only [hstep, if_false, atomic_load_of_lt _ _ hlt, hv, ne_eq, not_true_eq_false,
        atomic_store_of_lt _ _ _ hlt, hwrap _ hsv]
      have := write_batch64_mem_loop_bound end_ size (size / 32) hwrap (size / 32 - 1) f
        (array.set (start / 32) 0) ((start / 32 + 1) % (size / 32))
        (wrap_ring_n start size_ull size) (0 + 1) (by simpa using hlen) (Nat.mod_lt _ hpos)
        (by omega) (by
          rw [mod_succ_add]
          have e : start / 32 + (size / 32 - 1 + 1) = start / 32 + size / 32 := by omega
          rw [e, Nat.add_mod_right, Nat.mod_eq_of_lt hsv]
          simp [List.getElem?_set, hlt, UINT_MAX])
      refine ⟨this.1, ?_⟩
      have h2 := this.2
      omega
  · have := write_batch64_mem_loop_bound end_ size (size / 32) hwrap 0 (f + 1) array
      (start / 32) start 0 hlen hsv (by omega) (by
        rw [Nat.add_zero, Nat.mod_eq_of_lt hsv, List.getElem?_eq_getElem hlt]
        exact fun h => hv (by injection h))
    refine ⟨this.1, ?_⟩
    have h2 := this.2
    omega

/-- C25: on a power-of-two ring of 32 to 4096 entries, for every bitmap,
every `start` in the ring and every `end_` (reachable by the step cursor or
not), `write_batch64` terminates within `size / 32 + 1` loop tests: it either
returns or takes the `exit(1)` branch, and it has examined at most
`size / 32 + 1` words. -/
theorem write_batch64_terminates (size : Nat) (hsize : RingSize size) (h4096 : size ≤ 4096)
    (array : Bitmap) (hlen : array.length = size / 32) (start : Nat) (hstart : start < size)
    (end_ fuel : Nat) (hfuel : size / 32 + 1 ≤ fuel) :
    ((∃ array', write_batch64 fuel array start end_ size = .ok array') ∨
      write_batch64 fuel array start end_ size = .fault .exit_failure) ∧
    (write_batch64_mem fuel array start end_ size).2.1 ≤ size / 32 + 1 := by
  obtain ⟨hend, hcount⟩ :=
    write_batch64_mem_ends size hsize h4096 array hlen start hstart end_ fuel hfuel
  refine ⟨?_, hcount⟩
  have heq := write_batch64_mem_loop_eq end_ ((size / size_ull) % 256) size fuel array
    (start / size_ull) start 0
  have hdef : write_batch64 fuel array start end_ size =
      write_batch64_loop end_ ((size / size_ull) % 256) size fuel array (start / size_ull)
        start := rfl
  have hmem : write_batch64_mem fuel array start end_ size =
      write_batch64_mem_loop end_ ((size / size_ull) % 256) size fuel array (start / size_ull)
        start 0 := rfl
  rw [hdef, heq, ← hmem]
  rcases hend with h | h
  · left
    rw [h]
    exact ⟨_, rfl⟩
  · right
    rw [h]

theorem write_batch64_terminates_witness :
    ((∃ array', write_batch64 5 [4294967295, 4294967295, 4294967295, 4294967295] 40 17 128
        = .ok array') ∨
      write_batch64 5 [4294967295, 4294967295, 4294967295, 4294967295] 40 17 128
        = .fault .exit_failure) ∧
    (write_batch64_mem 5 [4294967295, 4294967295, 4294967295, 4294967295] 40 17 128).2.1
      ≤ 128 / 32 + 1 :=
  write_batch64_terminates 128 ⟨⟨7, by decide⟩, by decide⟩ (by decide)
    [4294967295, 4294967295, 4294967295, 4294967295] (by decide) 40 (by decide) 17 5
    (by decide)

/-- C22: on a power-of-two ring of 32 to 4096 entries with at least one word
that is not `UINT_MAX`, let `count` be what `read_batch64(array, start, size)`
returns.  Then `write_batch64(array, start, (start + count) % size, size)`
returns without aborting, the `count / 32` words counted are zero afterwards
and every other word is unchanged, and `read_batch64(array, start, size)` on
the array it leaves returns 0. -/
theorem drain_round_trip (size : Nat) (hsize : RingSize size) (h4096 : size ≤ 4096)
    (array : Bitmap) (hlen : array.length = size / 32)
    (hsome : ∃ w ∈ array, w ≠ UINT_MAX) (start : Nat) (hstart : start < size) :
    ∃ count,
      (∀ fuel, size / 32 ≤ fuel → read_batch64 fuel array start size = .ok count) ∧
      ∀ fuel, size / 32 ≤ fuel →
        ∃ array', write_batch64 fuel array start ((start + count) % size) size = .ok array' ∧
          (∀ j, j < count / 32 → array'[(start / 32 + j) % (size / 32)]? = some 0) ∧
          (∀ w : Nat, (∀ j, j < count / 32 → w ≠ (start / 32 + j) % (size / 32)) →
            array'[w]? = array[w]?) ∧
          ∀ fuel', 0 < fuel' → read_batch64 fuel' array' start size = .ok 0 := by
  obtain ⟨hsa, hwrap, hwrapn⟩ := ring_drain_facts size hsize h4096
  obtain ⟨hpos, hmul, _⟩ := ring_scan_facts size hsize (by omega)
  have hsv : start / 32 < size / 32 := word_index_lt size start hsize.2 hstart
  obtain ⟨k, hk, hstop, hrun, hres⟩ :=
    read_batch64_scan size hsize (by omega) array hlen hsome start hstart
  have hk32 : 32 * k / 32 = k := by omega
  refine ⟨32 * k, fun fuel hfuel => hres fuel (by omega), fun fuel hfuel => ?_⟩
  obtain ⟨a', hw, hlen', hzero, hkeep⟩ := write_batch64_loop_full size (size / 32) hwrap
    hwrapn hmul k fuel array (start / 32) start hlen hsv hstart hk (by omega) hrun
  have hdef : write_batch64 fuel array start ((start + 32 * k) % size) size =
      write_batch64_loop ((start + 32 * k) % size) (size / 32) size fuel array
        (start / 32) start := by
    simp only [write_batch64, hsa]
    rfl
  rw [hk32]
  refine ⟨a', hdef.trans hw, hzero, hkeep, fun fuel' hfuel' => ?_⟩
  have hnot : atomic_load a' ((start / 32 + 0) % (size / 32)) ≠ .ok UINT_MAX := by
    rw [Nat.add_zero, Nat.mod_eq_of_lt hsv]
    rcases k with _ | k
    · have h1 := hkeep (start / 32) (fun j hj => absurd hj (by omega))
      rw [Nat.add_zero, Nat.mod_eq_of_lt hsv] at hstop
      unfold atomic_load at hstop ⊢
      rw [h1]
      exact hstop
    · have h1 := hzero 0 (by omega)
      rw [Nat.add_zero, Nat.mod_eq_of_lt hsv] at h1
      unfold atomic_load
      rw [h1]
      simp [UINT_MAX]
  have := read_batch64_loop_run a' size (size / 32) rfl hwrap hlen' 0 fuel' (start / 32) 0 hsv
    hfuel' (by omega) (fun j hj => absurd hj (by omega)) hnot
  simpa [read_batch64, size_ull] using this

theorem drain_round_trip_witness :
    ∃ count,
      (∀ fuel, 128 / 32 ≤ fuel →
        read_batch64 fuel [9, 4294967295, 4294967295, 4294967295] 40 128 = .ok count) ∧
      ∀ fuel, 128 / 32 ≤ fuel →
        ∃ array', write_batch64 fuel [9, 4294967295, 4294967295, 4294967295] 40
            ((40 + count) % 128) 128 = .ok array' ∧
          (∀ j, j < count / 32 → array'[(40 / 32 + j) % (128 / 32)]? = some 0) ∧
          (∀ w : Nat, (∀ j, j < count / 32 → w ≠ (40 / 32 + j) % (128 / 32)) →
            array'[w]? = [9, 4294967295, 4294967295, 4294967295][w]?) ∧
          ∀ fuel', 0 < fuel' → read_batch64 fuel' array' 40 128 = .ok 0 :=
  drain_round_trip 128 ⟨⟨7, by decide⟩, by decide⟩ (by decide)
    [9, 4294967295, 4294967295, 4294967295] (by decide) ⟨9, by decide, by decide⟩ 40
    (by decide)

end Corec
